import Mathlib

/-!
Verification of the relay-circuit simulator (`src/circuit.rs`).

The embedding below translates the Rust source into Lean:

* Rust `String` is modelled as `List Char`; `HashMap` as an association
  list with unique keys (`assocGet` reads the first matching entry,
  `assocUpdateFirst` rewrites it, mirroring a map with unique keys).
* Rust `Vec<T>` indexing is modelled with `List.getD` / `List.set`;
  well-formedness hypotheses keep every index in range, exactly as the
  builder guarantees for the vectors it produces.
* Machine integers `i8` / `u8` become `Int` / `Nat` together with the
  range constraints `-128 ≤ i ≤ 127` and `s ≤ 255` where they matter.
* A Rust `panic!` / failed `assert!` / `unwrap` is modelled by an
  `Option` result being `none`.
* The `Vec` used as a stack in the simulator (`push` to the end, `pop`
  from the end) is modelled by a list whose head is the top of the
  stack, so `push x` is `x :: l` and `extend xs` is `xs.reverse ++ l`.
-/

namespace Z3mu

/-- Association-list read: value of the first entry whose key is `k`,
modelling a hash-map lookup (keys are unique in every map the code builds). -/
def assocGet {κ α : Type} [DecidableEq κ] : List (κ × α) → κ → Option α
  | [], _ => none
  | (k', v) :: rest, k => if k' = k then some v else assocGet rest k

/-- Association-list update of the first entry whose key is `k`. -/
def assocUpdateFirst {κ α : Type} [DecidableEq κ] : List (κ × α) → κ → (α → α) → List (κ × α)
  | [], _, _ => []
  | (k', v) :: rest, k, f => if k' = k then (k', f v) :: rest else (k', v) :: assocUpdateFirst rest k f

/-- Append `v` to the list stored under `k`, creating the entry when absent;
this is the `entry(k).or_insert_with(Vec::new).push(v)` idiom. -/
def appendGroup {κ α : Type} [DecidableEq κ] (m : List (κ × List α)) (k : κ) (v : α) : List (κ × List α) :=
  if (assocGet m k).isSome then assocUpdateFirst m k (fun l => l ++ [v]) else m ++ [(k, [v])]

theorem assocGet_append_left {κ α : Type} [DecidableEq κ] (m₁ m₂ : List (κ × α)) (k : κ)
    (h : (assocGet m₁ k).isSome) : assocGet (m₁ ++ m₂) k = assocGet m₁ k := by
  induction m₁ with
  | nil => simp [assocGet] at h
  | cons e rest ih =>
    obtain ⟨k', v⟩ := e
    by_cases hk : k' = k
    · simp [assocGet, hk]
    · simp only [assocGet, hk, if_false, List.cons_append] at *
      exact ih h

theorem assocGet_append_right {κ α : Type} [DecidableEq κ] (m₁ m₂ : List (κ × α)) (k : κ)
    (h : assocGet m₁ k = none) : assocGet (m₁ ++ m₂) k = assocGet m₂ k := by
  induction m₁ with
  | nil => simp
  | cons e rest ih =>
    obtain ⟨k', v⟩ := e
    by_cases hk : k' = k
    · simp [assocGet, hk] at h
    · simp only [assocGet, hk, if_false, List.cons_append] at *
      exact ih h

theorem assocGet_updateFirst_self {κ α : Type} [DecidableEq κ] (m : List (κ × α)) (k : κ) (f : α → α) :
    assocGet (assocUpdateFirst m k f) k = (assocGet m k).map f := by
  induction m with
  | nil => simp [assocGet, assocUpdateFirst]
  | cons e rest ih =>
    obtain ⟨k', v⟩ := e
    by_cases hk : k' = k
    · simp [assocGet, assocUpdateFirst, hk]
    · simp [assocGet, assocUpdateFirst, hk, ih]

theorem assocGet_updateFirst_ne {κ α : Type} [DecidableEq κ] (m : List (κ × α)) (k k' : κ) (f : α → α)
    (h : k ≠ k') : assocGet (assocUpdateFirst m k f) k' = assocGet m k' := by
  induction m with
  | nil => simp [assocUpdateFirst]
  | cons e rest ih =>
    obtain ⟨k₀, v⟩ := e
    by_cases hk : k₀ = k
    · subst hk
      simp [assocGet, assocUpdateFirst, h]
    · simp [assocGet, assocUpdateFirst, hk, ih]

theorem assocGet_appendGroup_self {κ α : Type} [DecidableEq κ] (m : List (κ × List α)) (k : κ) (v : α) :
    assocGet (appendGroup m k v) k = some ((assocGet m k).getD [] ++ [v]) := by
  unfold appendGroup
  cases hg : assocGet m k with
  | none =>
    simp only [hg, Option.isSome_none, Bool.false_eq_true, if_false]
    rw [assocGet_append_right m _ k hg]
    simp [assocGet]
  | some l =>
    simp only [hg, Option.isSome_some, if_true]
    rw [assocGet_updateFirst_self, hg]
    simp

theorem assocGet_appendGroup_ne {κ α : Type} [DecidableEq κ] (m : List (κ × List α)) (k k' : κ) (v : α)
    (h : k ≠ k') : assocGet (appendGroup m k v) k' = assocGet m k' := by
  unfold appendGroup
  cases hg : assocGet m k with
  | none =>
    simp only [hg, Option.isSome_none, Bool.false_eq_true, if_false]
    cases hg' : assocGet m k' with
    | none =>
      rw [assocGet_append_right m _ k' hg']
      simp [assocGet, h]
    | some l =>
      rw [assocGet_append_left m _ k' (by simp [hg'])]
      exact hg'
  | some l =>
    simp only [hg, Option.isSome_some, if_true]
    exact assocGet_updateFirst_ne m k k' _ h

/-- Read with default, modelling in-range `Vec` indexing. -/
theorem getD_set_self {α : Type} (l : List α) (i : Nat) (a d : α) (h : i < l.length) :
    (l.set i a).getD i d = a := by
  induction l generalizing i with
  | nil => simp at h
  | cons x xs ih =>
    cases i with
    | zero => simp [List.set, List.getD]
    | succ n =>
      simp only [List.set, List.getD_cons_succ]
      exact ih n (by simpa using h)

theorem getD_set_ne {α : Type} (l : List α) (i j : Nat) (a d : α) (h : i ≠ j) :
    (l.set i a).getD j d = l.getD j d := by
  induction l generalizing i j with
  | nil => simp [List.set]
  | cons x xs ih =>
    cases i with
    | zero =>
      cases j with
      | zero => exact absurd rfl h
      | succ m => simp [List.set]
    | succ n =>
      cases j with
      | zero => simp [List.set]
      | succ m =>
        simp only [List.set, List.getD_cons_succ]
        exact ih n m (fun hnm => h (by rw [hnm]))

theorem getD_set_le {α : Type} (l : List α) (i : Nat) (a d : α) (h : l.length ≤ i) :
    l.set i a = l := by
  exact List.set_eq_of_length_le h

/-! ### Handle (`struct Handle` and its `Display` / `From<&str>` impls) -/

/-- `Handle { name, index, sup }` from `circuit.rs`; `index : Option<i8>` and
`sup : Option<u8>` become `Option Int` / `Option Nat` with range side conditions. -/
structure Handle where
  name : List Char
  index : Option Int
  sup : Option Nat
deriving DecidableEq, Repr

/-- The reserved ground handle `G`. -/
def gHandle : Handle := ⟨['G'], none, none⟩

/-- Decimal digits of `n`, most significant first, by structural fuel recursion
(the fuel `n` itself is always enough since `n / 10 < n` for `n > 0`). -/
def natToCharsCore : Nat → Nat → List Char
  | 0, _ => []
  | fuel + 1, n =>
    if n = 0 then [] else natToCharsCore fuel (n / 10) ++ [Nat.digitChar (n % 10)]

/-- Decimal rendering of a `Nat`, as Rust's `Display` for unsigned integers. -/
def natToChars (n : Nat) : List Char :=
  if n = 0 then ['0'] else natToCharsCore n n

/-- Decimal rendering of an `Int`, as Rust's `Display` for signed integers. -/
def intToChars (i : Int) : List Char :=
  if i < 0 then '-' :: natToChars i.natAbs else natToChars i.toNat

/-- Numeric value of an ASCII digit, `none` on any other character. -/
def digitVal (c : Char) : Option Nat :=
  if 48 ≤ c.toNat ∧ c.toNat ≤ 57 then some (c.toNat - 48) else none

/-- Accumulating decimal parser over a character list. -/
def parseNatCore : List Char → Nat → Option Nat
  | [], acc => some acc
  | c :: cs, acc =>
    match digitVal c with
    | none => none
    | some d => parseNatCore cs (acc * 10 + d)

/-- Parse a non-empty all-digit string, as the digit part of Rust's integer `from_str`. -/
def parseNatChars (l : List Char) : Option Nat :=
  if l = [] then none else parseNatCore l 0

/-- Rust `i8::from_str`: optional sign, digits, range check (overflow is an error). -/
def parseI8Chars (l : List Char) : Option Int :=
  match l with
  | '-' :: rest => (parseNatChars rest).bind fun n => if n ≤ 128 then some (-(n : Int)) else none
  | '+' :: rest => (parseNatChars rest).bind fun n => if n ≤ 127 then some ((n : Int)) else none
  | _ => (parseNatChars l).bind fun n => if n ≤ 127 then some ((n : Int)) else none

/-- Rust `u8::from_str`: optional `+`, digits, range check. -/
def parseU8Chars (l : List Char) : Option Nat :=
  match l with
  | '+' :: rest => (parseNatChars rest).bind fun n => if n ≤ 255 then some n else none
  | _ => (parseNatChars l).bind fun n => if n ≤ 255 then some n else none

/-- Split at the first occurrence of `c`, as Rust `str::find` plus slicing. -/
def splitFirst (c : Char) : List Char → Option (List Char × List Char)
  | [] => none
  | x :: xs =>
    if x = c then some ([], xs)
    else (splitFirst c xs).map (fun p => (x :: p.1, p.2))

/-- The `Display` impl for `Handle`: `name`, then `_index`, then `^sup`. -/
def Handle.display (h : Handle) : List Char :=
  h.name
    ++ (match h.index with | some i => '_' :: intToChars i | none => [])
    ++ (match h.sup with | some s => '^' :: natToChars s | none => [])

/-- Index-and-name part of `Handle`'s `From<&str>`: split the remainder at the
first `_` and parse an `i8` after it; a failed parse is a panic (`none`). -/
def fromStrRest (l : List Char) (sup : Option Nat) : Option Handle :=
  match splitFirst '_' l with
  | some (nm, idx) => (parseI8Chars idx).map fun i => ⟨nm, some i, sup⟩
  | none => some ⟨l, none, sup⟩

/-- The `From<&str>` impl for `Handle`: split at the first `^` and parse a `u8`
after it, then handle the front with `fromStrRest`. -/
def Handle.fromStr (l : List Char) : Option Handle :=
  match splitFirst '^' l with
  | some (pre, post) => (parseU8Chars post).bind fun s => fromStrRest pre (some s)
  | none => fromStrRest l none

/-! ### Round-trip lemmas for the decimal formats -/

theorem digitVal_digitChar (d : Nat) (h : d < 10) : digitVal (Nat.digitChar d) = some d := by
  interval_cases d <;> decide

theorem digitChar_isDigit (d : Nat) (h : d < 10) :
    48 ≤ (Nat.digitChar d).toNat ∧ (Nat.digitChar d).toNat ≤ 57 := by
  interval_cases d <;> decide

theorem natToCharsCore_digits (fuel n : Nat) :
    ∀ c ∈ natToCharsCore fuel n, 48 ≤ c.toNat ∧ c.toNat ≤ 57 := by
  induction fuel generalizing n with
  | zero => intro c hc; simp [natToCharsCore] at hc
  | succ fuel ih =>
    intro c hc
    by_cases h0 : n = 0
    · simp [natToCharsCore, h0] at hc
    · simp only [natToCharsCore, h0, if_false, List.mem_append, List.mem_singleton] at hc
      rcases hc with hc | hc
      · exact ih (n / 10) c hc
      · subst hc; exact digitChar_isDigit _ (Nat.mod_lt _ (by norm_num))

theorem natToChars_digits (n : Nat) : ∀ c ∈ natToChars n, 48 ≤ c.toNat ∧ c.toNat ≤ 57 := by
  unfold natToChars
  by_cases h0 : n = 0
  · simp [h0]
  · simp only [h0, if_false]
    exact natToCharsCore_digits n n

theorem parseNatCore_append (l₁ l₂ : List Char) (acc : Nat) :
    parseNatCore (l₁ ++ l₂) acc =
      match parseNatCore l₁ acc with
      | none => none
      | some a => parseNatCore l₂ a := by
  induction l₁ generalizing acc with
  | nil => simp [parseNatCore]
  | cons c cs ih =>
    simp only [List.cons_append, parseNatCore]
    cases digitVal c with
    | none => simp
    | some d => simp [ih]

theorem parseNatCore_natToCharsCore (fuel : Nat) :
    ∀ n, n ≤ fuel → ∃ k : Nat, ∀ acc : Nat,
      parseNatCore (natToCharsCore fuel n) acc = some (acc * 10 ^ k + n) := by
  induction fuel with
  | zero =>
    intro n hn
    interval_cases n
    exact ⟨0, fun acc => by simp [natToCharsCore, parseNatCore]⟩
  | succ fuel ih =>
    intro n hn
    by_cases h0 : n = 0
    · exact ⟨0, fun acc => by simp [natToCharsCore, h0, parseNatCore]⟩
    · have hdiv : n / 10 ≤ fuel := by
        have : n / 10 < n := Nat.div_lt_self (Nat.pos_of_ne_zero h0) (by norm_num)
        omega
      obtain ⟨k, hk⟩ := ih (n / 10) hdiv
      refine ⟨k + 1, fun acc => ?_⟩
      simp only [natToCharsCore, h0, if_false]
      rw [parseNatCore_append, hk acc]
      simp only [parseNatCore, digitVal_digitChar (n % 10) (Nat.mod_lt _ (by norm_num))]
      have : (acc * 10 ^ k + n / 10) * 10 + n % 10 = acc * 10 ^ (k + 1) + n := by
        have hmod := Nat.div_add_mod n 10
        ring_nf
        omega
      rw [this]

theorem parseNatChars_natToChars (n : Nat) : parseNatChars (natToChars n) = some n := by
  by_cases h0 : n = 0
  · subst h0; decide
  · have hne : natToCharsCore n n ≠ [] := by
      cases n with
      | zero => exact absurd rfl h0
      | succ m => simp [natToCharsCore]
    obtain ⟨k, hk⟩ := parseNatCore_natToCharsCore n n le_rfl
    unfold natToChars parseNatChars
    simp only [h0, if_false, hne, if_false]
    rw [hk 0]
    simp

theorem natToChars_head_digit (n : Nat) :
    ∃ c cs, natToChars n = c :: cs ∧ 48 ≤ c.toNat ∧ c.toNat ≤ 57 := by
  cases hl : natToChars n with
  | nil =>
    exfalso
    unfold natToChars at hl
    by_cases h0 : n = 0
    · simp [h0] at hl
    · simp only [h0, if_false] at hl
      cases n with
      | zero => exact h0 rfl
      | succ m => simp [natToCharsCore] at hl
  | cons c cs =>
    refine ⟨c, cs, rfl, ?_⟩
    have := natToChars_digits n c (by rw [hl]; exact List.mem_cons_self c cs)
    exact this

theorem parseU8Chars_natToChars (s : Nat) (hs : s ≤ 255) :
    parseU8Chars (natToChars s) = some s := by
  obtain ⟨c, cs, hl, hc1, hc2⟩ := natToChars_head_digit s
  have hplus : c ≠ '+' := by
    intro h; subst h; simp at hc1
  rw [hl]
  have : parseU8Chars (c :: cs) = (parseNatChars (c :: cs)).bind fun n => if n ≤ 255 then some n else none := by
    unfold parseU8Chars
    split
    · next heq => injection heq with h1 _; exact absurd h1 hplus
    · rfl
  rw [this, ← hl, parseNatChars_natToChars]
  simp [hs]

theorem parseI8Chars_intToChars (i : Int) (h1 : -128 ≤ i) (h2 : i ≤ 127) :
    parseI8Chars (intToChars i) = some i := by
  by_cases hneg : i < 0
  · unfold intToChars
    simp only [hneg, if_true]
    have : parseI8Chars ('-' :: natToChars i.natAbs) =
        (parseNatChars (natToChars i.natAbs)).bind fun n => if n ≤ 128 then some (-(n : Int)) else none := by
      rfl
    rw [this, parseNatChars_natToChars]
    have habs : i.natAbs ≤ 128 := by omega
    simp only [Option.some_bind, habs, if_true]
    congr 1
    omega
  · unfold intToChars
    simp only [hneg, if_false]
    obtain ⟨c, cs, hl, hc1, hc2⟩ := natToChars_head_digit i.toNat
    have hminus : c ≠ '-' := by intro h; subst h; simp at hc1
    have hplus : c ≠ '+' := by intro h; subst h; simp at hc1
    rw [hl]
    have : parseI8Chars (c :: cs) = (parseNatChars (c :: cs)).bind fun n => if n ≤ 127 then some ((n : Int)) else none := by
      unfold parseI8Chars
      split
      · next heq => injection heq with ha _; exact absurd ha hminus
      · next heq => injection heq with ha _; exact absurd ha hplus
      · rfl
    rw [this, ← hl, parseNatChars_natToChars]
    have htop : i.toNat ≤ 127 := by omega
    simp only [Option.some_bind, htop, if_true]
    congr 1
    omega

theorem splitFirst_not_mem (c : Char) (l : List Char) (h : c ∉ l) : splitFirst c l = none := by
  induction l with
  | nil => rfl
  | cons x xs ih =>
    have hx : x ≠ c := fun he => h (he ▸ List.mem_cons_self x xs)
    simp only [splitFirst, hx, if_false]
    rw [ih (fun hm => h (List.mem_cons_of_mem x hm))]
    rfl

theorem splitFirst_append (c : Char) (l₁ l₂ : List Char) (h : c ∉ l₁) :
    splitFirst c (l₁ ++ c :: l₂) = some (l₁, l₂) := by
  induction l₁ with
  | nil => simp [splitFirst]
  | cons x xs ih =>
    have hx : x ≠ c := fun he => h (he ▸ List.mem_cons_self x xs)
    simp only [List.cons_append, splitFirst, hx, if_false, List.append_eq]
    rw [ih (fun hm => h (List.mem_cons_of_mem x hm))]
    rfl

theorem intToChars_no_sep (i : Int) :
    ∀ c ∈ intToChars i, c ≠ '_' ∧ c ≠ '^' := by
  intro c hc
  unfold intToChars at hc
  split at hc
  · rcases List.mem_cons.mp hc with hc | hc
    · subst hc; decide
    · have := natToChars_digits _ c hc
      constructor <;> (intro he; subst he; revert this; decide)
  · have := natToChars_digits _ c hc
    constructor <;> (intro he; subst he; revert this; decide)

theorem natToChars_no_sep (n : Nat) :
    ∀ c ∈ natToChars n, c ≠ '_' ∧ c ≠ '^' := by
  intro c hc
  have := natToChars_digits n c hc
  constructor <;> (intro he; subst he; revert this; decide)

theorem fromStr_caret_none (l : List Char) (h : splitFirst '^' l = none) :
    Handle.fromStr l = fromStrRest l none := by
  unfold Handle.fromStr
  rw [h]

theorem fromStr_caret_some (l pre post : List Char) (h : splitFirst '^' l = some (pre, post)) :
    Handle.fromStr l = (parseU8Chars post).bind fun s => fromStrRest pre (some s) := by
  unfold Handle.fromStr
  rw [h]

theorem fromStrRest_none (l : List Char) (sup : Option Nat) (h : splitFirst '_' l = none) :
    fromStrRest l sup = some ⟨l, none, sup⟩ := by
  unfold fromStrRest
  rw [h]

theorem fromStrRest_some (l nm idx : List Char) (sup : Option Nat)
    (h : splitFirst '_' l = some (nm, idx)) :
    fromStrRest l sup = (parseI8Chars idx).map fun i => ⟨nm, some i, sup⟩ := by
  unfold fromStrRest
  rw [h]

/-- C8. Parsing the formatted text form of a Handle yields the same Handle,
for every Handle whose name avoids the separator characters and whose numeric
decorations fit their Rust types (`i8` index, `u8` sup), negative indices included. -/
theorem handle_roundtrip (h : Handle)
    (hn1 : '_' ∉ h.name) (hn2 : '^' ∉ h.name)
    (hidx : ∀ i ∈ h.index, -128 ≤ i ∧ i ≤ 127)
    (hsup : ∀ s ∈ h.sup, s ≤ 255) :
    Handle.fromStr h.display = some h := by
  obtain ⟨nm, idx, sup⟩ := h
  simp only [Handle.display] at *
  cases idx with
  | none =>
    cases sup with
    | none =>
      simp only [List.append_nil]
      rw [fromStr_caret_none _ (splitFirst_not_mem '^' nm hn2)]
      rw [fromStrRest_none _ _ (splitFirst_not_mem '_' nm hn1)]
    | some s =>
      have hs : s ≤ 255 := hsup s rfl
      simp only [List.append_nil]
      rw [fromStr_caret_some _ nm (natToChars s) (splitFirst_append '^' nm (natToChars s) hn2)]
      rw [parseU8Chars_natToChars s hs, Option.some_bind]
      rw [fromStrRest_none _ _ (splitFirst_not_mem '_' nm hn1)]
  | some i =>
    have hi := hidx i rfl
    have hno : '^' ∉ nm ++ '_' :: intToChars i := by
      intro hm
      rcases List.mem_append.mp hm with hm | hm
      · exact hn2 hm
      · rcases List.mem_cons.mp hm with hm | hm
        · exact absurd hm.symm (by decide)
        · exact (intToChars_no_sep i _ hm).2 rfl
    cases sup with
    | none =>
      simp only [List.append_nil]
      rw [fromStr_caret_none _ (splitFirst_not_mem '^' _ hno)]
      rw [fromStrRest_some _ nm (intToChars i) none (splitFirst_append '_' nm (intToChars i) hn1)]
      rw [parseI8Chars_intToChars i hi.1 hi.2]
      rfl
    | some s =>
      have hs : s ≤ 255 := hsup s rfl
      have hassoc : nm ++ '_' :: intToChars i ++ '^' :: natToChars s =
          (nm ++ '_' :: intToChars i) ++ '^' :: natToChars s := by
        simp
      rw [hassoc]
      rw [fromStr_caret_some _ _ (natToChars s)
        (splitFirst_append '^' _ (natToChars s) hno)]
      rw [parseU8Chars_natToChars s hs, Option.some_bind]
      rw [fromStrRest_some _ nm (intToChars i) (some s)
        (splitFirst_append '_' nm (intToChars i) hn1)]
      rw [parseI8Chars_intToChars i hi.1 hi.2]
      rfl

/-! ### Graph model and builder (`CBuilder`, `Subcircuit`, `Circuit`) -/

/-- Finalized `struct Switch { pole, no, nc }`. -/
structure Switch where
  pole : Nat
  no : Nat
  nc : Nat
deriving DecidableEq, Repr

/-- Finalized `struct Coil { switches }`: the switch ids this coil actuates. -/
structure Coil where
  switches : List Nat
deriving DecidableEq, Repr

/-- `struct BuilderSwitch { name, pole, no, nc }`. -/
structure BuilderSwitch where
  name : Handle
  pole : Nat
  no : Nat
  nc : Nat
deriving DecidableEq, Repr

/-- `struct BuilderCoil { name, pos }`. -/
structure BuilderCoil where
  name : Handle
  pos : Nat
deriving DecidableEq, Repr

/-- `enum NodeSpec { Wire(NodeId), New, Named(Handle) }`. -/
inductive NodeSpec where
  | Wire (node : Nat)
  | New
  | Named (name : Handle)
deriving DecidableEq, Repr

/-- `struct CBuilder`. -/
structure CBuilder where
  numNodes : Nat
  nodeAliases : List (Handle × Nat)
  switches : List BuilderSwitch
  coils : List BuilderCoil
  publicNodes : List (Nat × List Handle)
deriving DecidableEq, Repr

/-- `CBuilder::new` (the `Default` impl). -/
def CBuilder.new : CBuilder := ⟨0, [], [], [], []⟩

/-- `CBuilder::is_public_by_default`: every character of the name is ASCII
uppercase or an underscore, and the handle has neither index nor sup. -/
def isPublicByDefault (h : Handle) : Bool :=
  h.name.all (fun c => c.isUpper || c == '_') && h.index.isNone && h.sup.isNone

/-- `CBuilder::coil_to_switch_name`: lowercase the name (the names in this
program are ASCII, where `Char.toLower` agrees with Rust's `to_lowercase`),
keep the index, strip the sup. -/
def coilToSwitchName (h : Handle) : Handle :=
  ⟨h.name.map Char.toLower, h.index, none⟩

/-- `CBuilder::expose_node`; the `expect` on a missing alias is a panic. -/
def CBuilder.exposeNode (b : CBuilder) (h : Handle) : Option CBuilder :=
  match assocGet b.nodeAliases h with
  | none => none
  | some nid => some { b with publicNodes := appendGroup b.publicNodes nid h }

/-- `CBuilder::name_node`; the `assert_eq!(prev, None)` makes rebinding a bound
handle a panic, and a public-by-default handle is exposed on binding. -/
def CBuilder.nameNode (b : CBuilder) (n : Nat) (h : Handle) : Option CBuilder :=
  match assocGet b.nodeAliases h with
  | some _ => none
  | none =>
    let b' := { b with nodeAliases := b.nodeAliases ++ [(h, n)] }
    if isPublicByDefault h then b'.exposeNode h else some b'

/-- `CBuilder::add_node`. -/
def CBuilder.addNode (b : CBuilder) : CBuilder × Nat :=
  ({ b with numNodes := b.numNodes + 1 }, b.numNodes)

/-- `CBuilder::named_node`. -/
def CBuilder.namedNode (b : CBuilder) (h : Handle) : Option (CBuilder × Nat) :=
  match assocGet b.nodeAliases h with
  | some nid => some (b, nid)
  | none =>
    let p := b.addNode
    (p.1.nameNode p.2 h).map (fun b' => (b', p.2))

/-- `CBuilder::node`. -/
def CBuilder.node (b : CBuilder) (spec : NodeSpec) : Option (CBuilder × Nat) :=
  match spec with
  | .Wire n => some (b, n)
  | .New => some b.addNode
  | .Named h => b.namedNode h

/-- `CBuilder::add_coil`. -/
def CBuilder.addCoil (b : CBuilder) (h : Handle) (pos : NodeSpec) : Option (CBuilder × Nat) :=
  (b.node pos).bind fun p =>
    (p.1.nameNode p.2 h).map fun b' =>
      ({ b' with coils := b'.coils ++ [⟨h, p.2⟩] }, p.2)

/-- `CBuilder::add_switch`. -/
def CBuilder.addSwitch (b : CBuilder) (name : Handle) (loc : NodeSpec × NodeSpec × NodeSpec) :
    Option (CBuilder × (Nat × Nat × Nat)) :=
  (b.node loc.1).bind fun p₁ =>
    (p₁.1.node loc.2.1).bind fun p₂ =>
      (p₂.1.node loc.2.2).map fun p₃ =>
        ({ p₃.1 with switches := p₃.1.switches ++ [⟨name, p₁.2, p₂.2, p₃.2⟩] }, (p₁.2, p₂.2, p₃.2))

/-- `struct Subcircuit`. -/
structure Subcircuit where
  coils : List (List Coil)
  switches : List Switch
  nameToNode : List (Handle × Nat)
  publicNodes : List (Nat × List Handle)
  switchPositions : List Bool
  nextSwitchPositions : List Bool
  connections : List (List Nat)
  nodeStates : List Bool
deriving DecidableEq, Repr

/-- `Subcircuit::connect`: push each endpoint onto the other's adjacency list. -/
def connect (conns : List (List Nat)) (a b : Nat) : List (List Nat) :=
  let conns' := conns.set a (conns.getD a [] ++ [b])
  conns'.set b (conns'.getD b [] ++ [a])

/-- Replace-or-insert, as `HashMap::insert` (the `name_to_node` build). -/
def assocInsert {κ α : Type} [DecidableEq κ] (m : List (κ × α)) (k : κ) (v : α) : List (κ × α) :=
  if (assocGet m k).isSome then assocUpdateFirst m k (fun _ => v) else m ++ [(k, v)]

/-- The `switches_by_name` grouping loop from `CBuilder::finalize`,
numbering switch ids from `i`. -/
def groupSwitches : List BuilderSwitch → Nat → List (Handle × List Nat) → List (Handle × List Nat)
  | [], _, m => m
  | sw :: rest, i, m => groupSwitches rest (i + 1) (appendGroup m sw.name i)

/-- Switch ids (numbered from `i`) whose actuator name is exactly `h`, in order. -/
def matchingFrom : List BuilderSwitch → Nat → Handle → List Nat
  | [], _, _ => []
  | sw :: rest, i, h => (if sw.name = h then [i] else []) ++ matchingFrom rest (i + 1) h

/-- `CBuilder::finalize`. -/
def CBuilder.finalize (b : CBuilder) : Subcircuit :=
  let nameToNode := b.publicNodes.foldl
    (fun m p => p.2.foldl (fun m nm => assocInsert m nm p.1) m) []
  let conns := b.switches.foldl (fun conns sw => connect conns sw.pole sw.nc)
    (List.replicate b.numNodes [])
  let sbn := groupSwitches b.switches 0 []
  let coils := b.coils.foldl
    (fun cs coil => cs.set coil.pos
      (cs.getD coil.pos [] ++ [⟨(assocGet sbn (coilToSwitchName coil.name)).getD []⟩]))
    (List.replicate b.numNodes [])
  { coils := coils
    switches := b.switches.map (fun sw => ⟨sw.pole, sw.no, sw.nc⟩)
    nameToNode := nameToNode
    publicNodes := b.publicNodes
    switchPositions := List.replicate b.switches.length false
    nextSwitchPositions := List.replicate b.switches.length false
    connections := conns
    nodeStates := List.replicate b.numNodes false }

/-! ### Subcircuit runtime (`start_step`, `update`, `end_step`) -/

/-- `Subcircuit::start_step`. -/
def Subcircuit.startStep (sc : Subcircuit) : Subcircuit :=
  { sc with nodeStates := List.replicate sc.nodeStates.length false }

/-- Set `next_switch_positions[s] = true` for every switch of every coil given. -/
def markCoils (nsp : List Bool) (cs : List Coil) : List Bool :=
  cs.foldl (fun nsp c => c.switches.foldl (fun nsp s => nsp.set s true) nsp) nsp

/-- Loop state of `Subcircuit::update`: the worklist (head = top of the stack),
the `node_states` visited vector, the shadow switch vector, and the returned
public handles. -/
structure UpdState where
  worklist : List Nat
  nodeStates : List Bool
  nextSwitchPositions : List Bool
  ret : List Handle
deriving DecidableEq, Repr

/-- One iteration of the `while let Some(node) = worklist.pop()` loop of
`Subcircuit::update`; `none` when the worklist is exhausted. -/
def updStep (conns : List (List Nat)) (coils : List (List Coil))
    (pub : List (Nat × List Handle)) : UpdState → Option UpdState
  | ⟨[], _, _, _⟩ => none
  | ⟨node :: rest, vis, nsp, ret⟩ => some <|
    if vis.getD node false then ⟨rest, vis, nsp, ret⟩
    else
      let ret' := ret ++ ((assocGet pub node).getD [])
      let vis' := vis.set node true
      let nsp' := markCoils nsp (coils.getD node [])
      let pushes := ((conns.getD node []).filter (fun o => !(vis'.getD o false))).reverse
      ⟨pushes ++ rest, vis', nsp', ret'⟩

/-- Fuelled iteration of a step function, stopping at the first `none`. -/
def iterOpt {σ : Type} (f : σ → Option σ) : Nat → σ → σ
  | 0, s => s
  | n + 1, s =>
    match f s with
    | none => s
    | some s' => iterOpt f n s'

/-- Weight of the unvisited nodes: each contributes its degree plus one. -/
def unvisWeight (conns : List (List Nat)) (vis : List Bool) : Nat :=
  ((List.range vis.length).map
    (fun v => if vis.getD v false then 0 else (conns.getD v []).length + 1)).sum

/-- A fuel that always suffices for the `update` worklist loop. -/
def updFuel (conns : List (List Nat)) (s : UpdState) : Nat :=
  s.worklist.length + unvisWeight conns s.nodeStates

/-- `Subcircuit::update` with the node id already resolved: run the worklist
loop to completion and commit the visited set, shadow vector and return list. -/
def Subcircuit.updateAt (sc : Subcircuit) (nid : Nat) : Subcircuit × List Handle :=
  let s0 : UpdState := ⟨[nid], sc.nodeStates, sc.nextSwitchPositions, []⟩
  let fin := iterOpt (updStep sc.connections sc.coils sc.publicNodes)
    (updFuel sc.connections s0) s0
  ({ sc with nodeStates := fin.nodeStates, nextSwitchPositions := fin.nextSwitchPositions },
    fin.ret)

/-- `Subcircuit::update`: the `self.name_to_node[node_name]` index panics on a
missing handle (`none`). -/
def Subcircuit.updateH (sc : Subcircuit) (h : Handle) : Option (Subcircuit × List Handle) :=
  (assocGet sc.nameToNode h).map sc.updateAt

/-- `Subcircuit::end_step_connections`: rebuild `connections` from scratch,
each switch contributing `pole ↔ (no if active else nc)`. -/
def Subcircuit.endStepConnections (sc : Subcircuit) : Subcircuit :=
  let conns := (sc.switchPositions.zip sc.switches).foldl
    (fun conns p => connect conns p.2.pole (if p.1 then p.2.no else p.2.nc))
    (List.replicate sc.nodeStates.length [])
  { sc with connections := conns }

/-- `Subcircuit::end_step`: commit `next_switch_positions` into
`switch_positions`, clear the shadow vector, rebuild `connections`. -/
def Subcircuit.endStep (sc : Subcircuit) : Subcircuit :=
  Subcircuit.endStepConnections
    { sc with
      switchPositions := sc.nextSwitchPositions,
      nextSwitchPositions := List.replicate sc.nextSwitchPositions.length false }

/-- The test-only `Subcircuit::step` helper: reset, propagate from `G` when
present, commit. -/
def Subcircuit.stepT (sc : Subcircuit) : Subcircuit :=
  let sc1 := sc.startStep
  let sc2 := match assocGet sc1.nameToNode gHandle with
    | some nid => (sc1.updateAt nid).1
    | none => sc1
  sc2.endStep

/-- The test-only `Subcircuit::is_high` observation (panic on missing handle). -/
def Subcircuit.isHigh (sc : Subcircuit) (h : Handle) : Option Bool :=
  (assocGet sc.nameToNode h).map (fun nid => sc.nodeStates.getD nid false)

/-- The test-only `Subcircuit::is_active` observation. -/
def Subcircuit.isActive (sc : Subcircuit) (i : Nat) : Bool :=
  sc.switchPositions.getD i false

/-! ### Circuit (`struct Circuit` and `Circuit::step`) -/

/-- `struct PublicNode { state, subcircuits }`. -/
structure PublicNode where
  state : Bool
  subcircuits : List (List Char)
deriving DecidableEq, Repr

/-- `struct Circuit`; `set_nodes` is a stack whose head is the top. -/
structure Circuit where
  subcircuits : List (List Char × Subcircuit)
  nodes : List (Handle × PublicNode)
  setNodes : List Handle
deriving DecidableEq, Repr

/-- `Circuit::new`. -/
def Circuit.new : Circuit := ⟨[], [], []⟩

/-- `Circuit::set`: push when the handle is known, warn and drop otherwise. -/
def Circuit.set (c : Circuit) (h : Handle) : Circuit :=
  if (assocGet c.nodes h).isSome then { c with setNodes := h :: c.setNodes } else c

/-- Possible outcomes of `Circuit::inspect`: an info log of the node state, or
a warning when the handle names no node. -/
inductive InspectOutcome where
  | logged (state : Bool)
  | warnedMissing
deriving DecidableEq, Repr

/-- `Circuit::inspect`: log the public node's state, or warn when missing. -/
def Circuit.inspect (c : Circuit) (h : Handle) : InspectOutcome :=
  match assocGet c.nodes h with
  | some pn => .logged pn.state
  | none => .warnedMissing

/-- `Circuit::add_subcircuit`: register every public handle of the subcircuit. -/
def Circuit.addSubcircuit (c : Circuit) (name : List Char) (sc : Subcircuit) : Circuit :=
  let nodes := sc.publicNodes.foldl
    (fun nodes p => p.2.foldl
      (fun nodes h =>
        if (assocGet nodes h).isSome
        then assocUpdateFirst nodes h
          (fun pn => { pn with subcircuits := pn.subcircuits ++ [name] })
        else nodes ++ [(h, ⟨false, [name]⟩)])
      nodes)
    c.nodes
  { c with subcircuits := c.subcircuits ++ [(name, sc)], nodes := nodes }

/-- Loop state of `Circuit::step` after the initial reset and the `G` push. -/
structure StepState where
  subcircuits : List (List Char × Subcircuit)
  nodes : List (Handle × PublicNode)
  setNodes : List Handle
  visited : List Handle
deriving DecidableEq, Repr

/-- The `for scid in &public_node.subcircuits` body of `Circuit::step`: update
each subcircuit at the popped handle and push the returned handles; `none`
models the `unwrap` and indexing panics. -/
def processSubs (h : Handle) : List (List Char) → StepState → Option StepState
  | [], s => some s
  | scid :: rest, s =>
    match assocGet s.subcircuits scid with
    | none => none
    | some sc =>
      match sc.updateH h with
      | none => none
      | some p =>
        processSubs h rest
          { s with
            subcircuits := assocUpdateFirst s.subcircuits scid (fun _ => p.1),
            setNodes := p.2.reverse ++ s.setNodes }

/-- The `while let Some(node_name) = self.set_nodes.pop()` loop of
`Circuit::step`. `none` models a panic; fuel exhaustion returns the state as
is (the fuel below always suffices, see the termination theorem). -/
def circuitLoop : Nat → StepState → Option StepState
  | 0, s => some s
  | fuel + 1, s =>
    match s.setNodes with
    | [] => some s
    | h :: rest =>
      if h ∈ s.visited then circuitLoop fuel { s with setNodes := rest }
      else
        let s₁ : StepState := { s with setNodes := rest, visited := h :: s.visited }
        match assocGet s₁.nodes h with
        | none => circuitLoop fuel s₁
        | some pn =>
          let s₂ : StepState :=
            { s₁ with nodes := assocUpdateFirst s₁.nodes h (fun q => { q with state := true }) }
          match processSubs h pn.subcircuits s₂ with
          | none => none
          | some s₃ => circuitLoop fuel s₃

/-- Reset every public node state to `false` (the first loop of `step`). -/
def resetNodes (nodes : List (Handle × PublicNode)) : List (Handle × PublicNode) :=
  nodes.map (fun p => (p.1, { p.2 with state := false }))

/-- Total length of the public alias lists of a subcircuit. -/
def aliasTotal (sc : Subcircuit) : Nat := (sc.publicNodes.map (fun p => p.2.length)).sum

/-- Total length of the subcircuit-id lists of the public node table. -/
def subsLenTotal (nodes : List (Handle × PublicNode)) : Nat :=
  (nodes.map (fun p => p.2.subcircuits.length)).sum

/-- Total public alias count over all subcircuits. -/
def aliasSumAll (subs : List (List Char × Subcircuit)) : Nat :=
  (subs.map (fun p => aliasTotal p.2)).sum

/-- Upper bound on the handles pushed while processing one fresh handle. -/
def pushBound (s : StepState) : Nat := subsLenTotal s.nodes * aliasSumAll s.subcircuits

/-- Number of public handles not yet visited. -/
def unvisKeyCount (s : StepState) : Nat :=
  ((s.nodes.map Prod.fst).filter (fun h => decide (h ∉ s.visited))).length

/-- A measure that strictly decreases at every `circuitLoop` iteration. -/
def outerMeasure (s : StepState) : Nat :=
  s.setNodes.length + unvisKeyCount s * (pushBound s + 1)

/-- `Circuit::step`: reset the public node states, push `G`, run the worklist
loop to completion. -/
def Circuit.step (c : Circuit) : Option Circuit :=
  let s0 : StepState := ⟨c.subcircuits, resetNodes c.nodes, gHandle :: c.setNodes, []⟩
  (circuitLoop (outerMeasure s0) s0).map fun s =>
    { subcircuits := s.subcircuits, nodes := s.nodes, setNodes := s.setNodes }

/-! ### The one-relay scenario (spec §8 scenario 2, `tests::one_relay`) -/

/-- Handle `Ab_0`, the coil of the one-relay scenario. -/
def coilAb : Handle := ⟨['A', 'b'], some 0, none⟩

/-- Handle `ab_0`, the switch actuator of the one-relay scenario. -/
def swAb : Handle := ⟨['a', 'b'], some 0, none⟩

/-- Handle `no`. -/
def hNo : Handle := ⟨['n', 'o'], none, none⟩

/-- Handle `nc`. -/
def hNc : Handle := ⟨['n', 'c'], none, none⟩

/-- The one-relay builder: a coil `Ab_0` whose positive terminal is the ground
node `G`, and a switch `ab_0` with pole at `G` and named terminals `no` / `nc`,
both exposed for observation. -/
def oneRelayCB : Option CBuilder :=
  (CBuilder.new.addCoil coilAb (.Named gHandle)).bind fun p =>
  (p.1.addSwitch swAb (.Named gHandle, .Named hNo, .Named hNc)).bind fun q =>
  (q.1.exposeNode hNo).bind fun b =>
  b.exposeNode hNc

/-- The finalized one-relay subcircuit. -/
def oneRelaySc : Option Subcircuit := oneRelayCB.map CBuilder.finalize

/-- The one-relay machine packaged as a `Circuit` with a single subcircuit. -/
def oneRelayCircuit : Option Circuit :=
  oneRelayCB.map fun cb => Circuit.new.addSubcircuit ['A'] cb.finalize

/-- C1. `Circuit::step` performs no Phase B commit: at the one-relay circuit a
step marks the coil's switch in `next_switch_positions`, yet when `step`
returns `switch_positions` is still all-false and `connections` still holds
only the resting `pole ↔ nc` edge (never rebuilt); even after a second step
the switch has not flipped into effect, contradicting the specified
delayed-update semantics (`end_step` exists but is never called by `step`). -/
theorem circuit_step_never_commits :
    ((oneRelayCircuit.bind Circuit.step).bind fun c =>
      (assocGet c.subcircuits ['A']).map fun sc =>
        (sc.switchPositions, sc.nextSwitchPositions, sc.connections))
      = some ([false], [true], [[2], [], [0]]) ∧
    (((oneRelayCircuit.bind Circuit.step).bind Circuit.step).bind fun c =>
      (assocGet c.subcircuits ['A']).map fun sc => sc.switchPositions)
      = some [false] := by
  constructor <;> decide

/-- C3 counterexample: contrary to the claimed schedule, after step 1 of the
one-relay scenario the switch is already active and `nc` already reads true
(the claim says the switch is inactive and both terminals read false). -/
theorem one_relay_step1_refutes :
    (oneRelaySc.map fun sc =>
      let s1 := sc.stepT
      (s1.isActive 0, s1.isHigh hNo, s1.isHigh hNc))
      = some (true, some false, some true) := by decide

/-- C3 amended: the claimed readings each occur one step earlier — before any
step the switch is inactive and both terminals read false; after step 1 the
switch is active, `no` reads false and `nc` reads true; after step 2 and after
step 3 the switch is active, `no` reads true and `nc` reads false. -/
theorem one_relay_schedule :
    (oneRelaySc.map fun sc => (sc.isActive 0, sc.isHigh hNo, sc.isHigh hNc))
      = some (false, some false, some false) ∧
    (oneRelaySc.map fun sc =>
      let s := sc.stepT
      (s.isActive 0, s.isHigh hNo, s.isHigh hNc))
      = some (true, some false, some true) ∧
    (oneRelaySc.map fun sc =>
      let s := sc.stepT.stepT
      (s.isActive 0, s.isHigh hNo, s.isHigh hNc))
      = some (true, some true, some false) ∧
    (oneRelaySc.map fun sc =>
      let s := sc.stepT.stepT.stepT
      (s.isActive 0, s.isHigh hNo, s.isHigh hNc))
      = some (true, some true, some false) := by
  refine ⟨by decide, by decide, by decide, by decide⟩

/-- Handle `Ba2` from the `add_coil` doc-comment example. -/
def hBa2 : Handle := ⟨['B', 'a', '2'], none, none⟩

/-- C4. `add_coil` with an already-bound Handle does not reuse the binding: the
`assert_eq!(prev, None)` in `name_node` fires, a panic. The first conjunct is
the `add_coil` doc-comment example itself (`n0 = node(New)`, then `Ba2` twice),
the second re-adds the coil at its own existing terminal, which conflicts with
nothing, and still panics. -/
theorem add_coil_rebind_panics :
    ((CBuilder.new.addNode.1.addCoil hBa2 .New).bind fun p =>
      p.1.addCoil hBa2 (.Wire 0)) = none ∧
    ((CBuilder.new.addCoil hBa2 .New).bind fun p =>
      p.1.addCoil hBa2 (.Wire p.2)) = none := by
  constructor <;> decide

/-- C6 counterexample: `Circuit::inspect` on a handle that names no node is a
logged warning followed by a normal return — the function has no fatal path —
here evaluated on the empty circuit. -/
theorem inspect_missing_warns :
    Circuit.new.inspect hNo = .warnedMissing := by decide

/-- C6 amended: a missing handle on `inspect` produces a warning and the call
returns normally (a no-op, the same policy as `set`); it is not fatal. -/
theorem inspect_missing_is_warning (c : Circuit) (h : Handle)
    (hmiss : assocGet c.nodes h = none) :
    c.inspect h = .warnedMissing := by
  unfold Circuit.inspect
  rw [hmiss]

/-- C6 amended witness. -/
theorem inspect_missing_is_warning_witness :
    assocGet Circuit.new.nodes hNc = none ∧ Circuit.new.inspect hNc = .warnedMissing :=
  ⟨by decide, inspect_missing_is_warning Circuit.new hNc (by decide)⟩

/-! ### C7: the public-by-default rule -/

theorem assocGet_append_single {κ α : Type} [DecidableEq κ] (m : List (κ × α)) (k : κ) (v : α)
    (h : assocGet m k = none) : assocGet (m ++ [(k, v)]) k = some v := by
  rw [assocGet_append_right m _ k h]
  simp [assocGet]

theorem nameNode_of_free (b : CBuilder) (n : Nat) (h : Handle)
    (hfree : assocGet b.nodeAliases h = none) :
    b.nameNode n h =
      (if isPublicByDefault h
       then CBuilder.exposeNode { b with nodeAliases := b.nodeAliases ++ [(h, n)] } h
       else some { b with nodeAliases := b.nodeAliases ++ [(h, n)] }) := by
  unfold CBuilder.nameNode
  rw [hfree]

/-- C7. Binding a fresh handle as a node name succeeds and auto-exposes it
exactly when its name is made of uppercase ASCII letters or underscores and it
carries neither index nor sup: when the rule holds the handle is appended to
the node's public alias list, otherwise the public table is untouched; and the
ground handle `G` always satisfies the rule. -/
theorem name_node_public_rule (b : CBuilder) (n : Nat) (h : Handle)
    (hfree : assocGet b.nodeAliases h = none) :
    (∃ b', b.nameNode n h = some b' ∧
      b'.nodeAliases = b.nodeAliases ++ [(h, n)] ∧
      (isPublicByDefault h = true →
        assocGet b'.publicNodes n = some ((assocGet b.publicNodes n).getD [] ++ [h])) ∧
      (isPublicByDefault h = false → b'.publicNodes = b.publicNodes)) ∧
    (isPublicByDefault h = true ↔
      (∀ c ∈ h.name, ('A' ≤ c ∧ c ≤ 'Z') ∨ c = '_') ∧ h.index = none ∧ h.sup = none) ∧
    isPublicByDefault gHandle = true := by
  refine ⟨?_, ?_, by decide⟩
  · rw [nameNode_of_free b n h hfree]
    by_cases hpub : isPublicByDefault h
    · simp only [hpub, if_true]
      unfold CBuilder.exposeNode
      rw [assocGet_append_single b.nodeAliases h n hfree]
      refine ⟨_, rfl, rfl, fun _ => ?_, fun hcon => by simp [hpub] at hcon⟩
      exact assocGet_appendGroup_self b.publicNodes n h
    · simp only [hpub, if_false]
      exact ⟨_, rfl, rfl, fun hcon => by simp [hpub] at hcon, fun _ => rfl⟩
  · unfold isPublicByDefault
    simp only [Bool.and_eq_true, List.all_eq_true, Bool.or_eq_true, beq_iff_eq,
      Option.isNone_iff_eq_none, Char.isUpper]
    constructor
    · rintro ⟨⟨hall, hidx⟩, hsup⟩
      refine ⟨fun c hc => ?_, hidx, hsup⟩
      rcases hall c hc with hu | hu
      · left
        simp only [Bool.and_eq_true, decide_eq_true_eq] at hu
        exact ⟨hu.1, hu.2⟩
      · right; exact hu
    · rintro ⟨hall, hidx, hsup⟩
      refine ⟨⟨fun c hc => ?_, hidx⟩, hsup⟩
      rcases hall c hc with hu | hu
      · left
        simp only [Bool.and_eq_true, decide_eq_true_eq]
        exact ⟨hu.1, hu.2⟩
      · right; exact hu

/-- C7 witness: binding `G` on the empty builder exposes it. -/
theorem name_node_public_rule_witness :
    assocGet CBuilder.new.nodeAliases gHandle = none ∧
    ((∃ b', CBuilder.new.nameNode 0 gHandle = some b' ∧
      b'.nodeAliases = CBuilder.new.nodeAliases ++ [(gHandle, 0)] ∧
      (isPublicByDefault gHandle = true →
        assocGet b'.publicNodes 0 =
          some ((assocGet CBuilder.new.publicNodes 0).getD [] ++ [gHandle])) ∧
      (isPublicByDefault gHandle = false → b'.publicNodes = CBuilder.new.publicNodes)) ∧
    (isPublicByDefault gHandle = true ↔
      (∀ c ∈ gHandle.name, ('A' ≤ c ∧ c ≤ 'Z') ∨ c = '_') ∧
        gHandle.index = none ∧ gHandle.sup = none) ∧
    isPublicByDefault gHandle = true) :=
  ⟨by decide, name_node_public_rule CBuilder.new 0 gHandle (by decide)⟩

/-- C8 witness: round-tripping the concrete handle `ab_-5^3`. -/
theorem handle_roundtrip_witness :
    ('_' ∉ (⟨['a', 'b'], some (-5), some 3⟩ : Handle).name ∧
     '^' ∉ (⟨['a', 'b'], some (-5), some 3⟩ : Handle).name ∧
     (∀ i ∈ (⟨['a', 'b'], some (-5), some 3⟩ : Handle).index, -128 ≤ i ∧ i ≤ 127) ∧
     (∀ s ∈ (⟨['a', 'b'], some (-5), some 3⟩ : Handle).sup, s ≤ 255)) ∧
    Handle.fromStr (Handle.display ⟨['a', 'b'], some (-5), some 3⟩) =
      some ⟨['a', 'b'], some (-5), some 3⟩ :=
  ⟨⟨by decide, by decide, by decide, by decide⟩,
    handle_roundtrip ⟨['a', 'b'], some (-5), some 3⟩
      (by decide) (by decide) (by decide) (by decide)⟩

/-! ### C5: coil-to-switch linkage at finalization -/

theorem assocGet_groupSwitches (sws : List BuilderSwitch) (i : Nat)
    (m : List (Handle × List Nat)) (h : Handle) :
    (assocGet (groupSwitches sws i m) h).getD []
      = (assocGet m h).getD [] ++ matchingFrom sws i h := by
  induction sws generalizing i m with
  | nil => simp [groupSwitches, matchingFrom]
  | cons sw rest ih =>
    simp only [groupSwitches, matchingFrom]
    rw [ih]
    by_cases hname : sw.name = h
    · rw [hname, assocGet_appendGroup_self]
      simp [hname]
    · rw [assocGet_appendGroup_ne m sw.name h i hname]
      simp [hname]

theorem getD_replicate {α : Type} (n p : Nat) (a : α) :
    (List.replicate n a).getD p a = a := by
  induction n generalizing p with
  | zero => simp
  | succ m ih =>
    cases p with
    | zero => simp [List.replicate]
    | succ q => simpa [List.replicate] using ih q

theorem coilsFold_getD (f : BuilderCoil → List Nat) (coilList : List BuilderCoil)
    (acc : List (List Coil)) (hwf : ∀ coil ∈ coilList, coil.pos < acc.length) (p : Nat) :
    (coilList.foldl (fun cs coil => cs.set coil.pos (cs.getD coil.pos [] ++ [⟨f coil⟩])) acc).getD p []
      = acc.getD p []
        ++ (coilList.filter (fun coil => coil.pos == p)).map (fun coil => Coil.mk (f coil)) := by
  induction coilList generalizing acc with
  | nil => simp
  | cons coil rest ih =>
    simp only [List.foldl_cons, List.filter_cons]
    have hlen : (acc.set coil.pos (acc.getD coil.pos [] ++ [⟨f coil⟩])).length = acc.length := by
      simp
    rw [ih _ (fun c hc => by rw [hlen]; exact hwf c (List.mem_cons_of_mem _ hc))]
    by_cases hp : coil.pos = p
    · subst hp
      rw [getD_set_self _ _ _ _ (hwf coil (List.mem_cons_self _ _))]
      simp
    · rw [getD_set_ne _ _ _ _ _ hp]
      have : (coil.pos == p) = false := by simpa using hp
      simp [this]

theorem finalize_coils_eq (b : CBuilder) :
    b.finalize.coils = b.coils.foldl
      (fun cs coil => cs.set coil.pos
        (cs.getD coil.pos []
          ++ [⟨(assocGet (groupSwitches b.switches 0 []) (coilToSwitchName coil.name)).getD []⟩]))
      (List.replicate b.numNodes []) := rfl

theorem matchingFrom_mem (sws : List BuilderSwitch) (i j : Nat) (h : Handle) :
    j ∈ matchingFrom sws i h ↔
      ∃ k, i + k = j ∧ ∃ sw, sws.get? k = some sw ∧ sw.name = h := by
  induction sws generalizing i with
  | nil => simp [matchingFrom]
  | cons sw rest ih =>
    simp only [matchingFrom, List.mem_append]
    constructor
    · rintro (hj | hj)
      · by_cases hname : sw.name = h
        · simp only [hname, if_true, List.mem_singleton] at hj
          exact ⟨0, by omega, sw, rfl, hname⟩
        · simp [hname] at hj
      · obtain ⟨k, hk, sw', hget, hname⟩ := (ih (i + 1)).mp hj
        exact ⟨k + 1, by omega, sw', by simpa using hget, hname⟩
    · rintro ⟨k, hk, sw', hget, hname⟩
      cases k with
      | zero =>
        left
        simp only [List.get?_cons_zero, Option.some_inj] at hget
        subst hget
        simp only [hname, if_true, List.mem_singleton]
        omega
      | succ k' =>
        right
        refine (ih (i + 1)).mpr ⟨k', by omega, sw', ?_, hname⟩
        simpa using hget

/-- C5. At finalization every coil is linked to exactly the switches whose
actuator handle equals its name lowercased with the sup stripped, in switch-id
order: the coil list at each node position is the pending coils at that
position, each carrying precisely the matching switch ids; `finalize` is total,
and a coil with no matching switch stays present with an empty switch list. -/
theorem finalize_coil_linkage (b : CBuilder)
    (hwf : ∀ coil ∈ b.coils, coil.pos < b.numNodes) :
    (∀ p : Nat,
      b.finalize.coils.getD p []
        = (b.coils.filter (fun coil => coil.pos == p)).map
            (fun coil => Coil.mk (matchingFrom b.switches 0 (coilToSwitchName coil.name)))) ∧
    (∀ coil ∈ b.coils, ∀ j : Nat,
      j ∈ matchingFrom b.switches 0 (coilToSwitchName coil.name) ↔
        ∃ sw, b.switches.get? j = some sw ∧
          sw.name = ⟨coil.name.name.map Char.toLower, coil.name.index, none⟩) := by
  constructor
  · intro p
    rw [finalize_coils_eq]
    rw [coilsFold_getD _ b.coils (List.replicate b.numNodes [])
      (fun c hc => by simpa using hwf c hc) p]
    have hrep : (List.replicate b.numNodes ([] : List Coil)).getD p [] = [] :=
      getD_replicate b.numNodes p []
    rw [hrep, List.nil_append]
    refine List.map_congr_left ?_
    intro coil hcoil
    rw [assocGet_groupSwitches b.switches 0 [] (coilToSwitchName coil.name)]
    simp [assocGet]
  · intro coil _ j
    rw [matchingFrom_mem b.switches 0 j (coilToSwitchName coil.name)]
    unfold coilToSwitchName
    constructor
    · rintro ⟨k, hk, sw, hget, hname⟩
      exact ⟨sw, by simpa [← hk] using hget, hname⟩
    · rintro ⟨sw, hget, hname⟩
      exact ⟨j, by omega, sw, hget, hname⟩

/-- C5 witness: the linkage equations at the concrete one-relay builder. -/
theorem finalize_coil_linkage_witness :
    (∀ coil ∈ (oneRelayCB.getD CBuilder.new).coils,
      coil.pos < (oneRelayCB.getD CBuilder.new).numNodes) ∧
    ((∀ p : Nat,
      (oneRelayCB.getD CBuilder.new).finalize.coils.getD p []
        = ((oneRelayCB.getD CBuilder.new).coils.filter (fun coil => coil.pos == p)).map
            (fun coil => Coil.mk
              (matchingFrom (oneRelayCB.getD CBuilder.new).switches 0
                (coilToSwitchName coil.name)))) ∧
    (∀ coil ∈ (oneRelayCB.getD CBuilder.new).coils, ∀ j : Nat,
      j ∈ matchingFrom (oneRelayCB.getD CBuilder.new).switches 0 (coilToSwitchName coil.name) ↔
        ∃ sw, (oneRelayCB.getD CBuilder.new).switches.get? j = some sw ∧
          sw.name = ⟨coil.name.name.map Char.toLower, coil.name.index, none⟩)) :=
  ⟨by decide, finalize_coil_linkage (oneRelayCB.getD CBuilder.new) (by decide)⟩

/-! ### C9: the adjacency structure is symmetric -/

theorem connect_length (conns : List (List Nat)) (a b : Nat) :
    (connect conns a b).length = conns.length := by
  simp [connect]

theorem count_connect (conns : List (List Nat)) (a b x y : Nat)
    (ha : a < conns.length) (hb : b < conns.length) :
    ((connect conns a b).getD x []).count y
      = (conns.getD x []).count y
        + (if x = a ∧ y = b then 1 else 0)
        + (if x = b ∧ y = a then 1 else 0) := by
  unfold connect
  by_cases hxb : x = b
  · subst hxb
    rw [getD_set_self _ _ _ _ (by simpa using hb)]
    by_cases hba : x = a
    · subst hba
      rw [getD_set_self _ _ _ _ ha]
      simp only [List.count_append, List.count_singleton']
      by_cases hyx : y = x
      · simp [hyx]
      · simp [hyx, Ne.symm hyx]
    · rw [getD_set_ne _ _ _ _ _ (fun he => hba he.symm)]
      simp only [List.count_append, List.count_singleton']
      by_cases hya : y = a
      · simp [hya, hba]
      · simp [hya, Ne.symm hya, hba]
  · rw [getD_set_ne _ _ _ _ _ (fun he => hxb he.symm)]
    by_cases hxa : x = a
    · subst hxa
      rw [getD_set_self _ _ _ _ ha]
      simp only [List.count_append, List.count_singleton']
      by_cases hyb : y = b
      · simp [hyb, hxb]
      · simp [hyb, Ne.symm hyb, hxb]
    · rw [getD_set_ne _ _ _ _ _ (fun he => hxa he.symm)]
      simp [hxa, hxb]

theorem foldl_connect_symm (edges : List (Nat × Nat)) (conns : List (List Nat))
    (hb : ∀ e ∈ edges, e.1 < conns.length ∧ e.2 < conns.length)
    (hs : ∀ x y, ((conns.getD x []).count y) = ((conns.getD y []).count x)) :
    ∀ x y, (((edges.foldl (fun cs e => connect cs e.1 e.2) conns).getD x []).count y)
      = (((edges.foldl (fun cs e => connect cs e.1 e.2) conns).getD y []).count x) := by
  induction edges generalizing conns with
  | nil => simpa using hs
  | cons e rest ih =>
    simp only [List.foldl_cons]
    have he := hb e (List.mem_cons_self _ _)
    refine ih (connect conns e.1 e.2) ?_ ?_
    · intro e' he'
      rw [connect_length]
      exact hb e' (List.mem_cons_of_mem _ he')
    · intro x y
      rw [count_connect conns e.1 e.2 x y he.1 he.2,
        count_connect conns e.1 e.2 y x he.1 he.2, hs x y]
      have e1 : (x = e.1 ∧ y = e.2) = (y = e.2 ∧ x = e.1) := propext and_comm
      have e2 : (x = e.2 ∧ y = e.1) = (y = e.1 ∧ x = e.2) := propext and_comm
      simp only [e1, e2]
      exact Nat.add_right_comm _ _ _

theorem replicate_symm (n : Nat) :
    ∀ x y, (((List.replicate n ([] : List Nat)).getD x []).count y)
      = (((List.replicate n ([] : List Nat)).getD y []).count x) := by
  intro x y
  rw [getD_replicate, getD_replicate]
  simp

theorem finalize_connections_eq (b : CBuilder) :
    b.finalize.connections
      = (b.switches.map (fun sw => (sw.pole, sw.nc))).foldl
          (fun cs e => connect cs e.1 e.2) (List.replicate b.numNodes []) := by
  show b.switches.foldl (fun conns sw => connect conns sw.pole sw.nc)
      (List.replicate b.numNodes [])
    = (b.switches.map (fun sw => (sw.pole, sw.nc))).foldl
        (fun cs e => connect cs e.1 e.2) (List.replicate b.numNodes [])
  rw [List.foldl_map]

theorem endStep_connections_eq (sc : Subcircuit) :
    (sc.endStep).connections
      = ((sc.nextSwitchPositions.zip sc.switches).map
          (fun p => (p.2.pole, if p.1 then p.2.no else p.2.nc))).foldl
          (fun cs e => connect cs e.1 e.2) (List.replicate sc.nodeStates.length []) := by
  show (sc.nextSwitchPositions.zip sc.switches).foldl
      (fun conns p => connect conns p.2.pole (if p.1 then p.2.no else p.2.nc))
      (List.replicate sc.nodeStates.length [])
    = _
  rw [List.foldl_map]

/-- C9. The adjacency structure is symmetric: in the connections built by
`finalize` and in the connections rebuilt by `end_step`, node `y` occurs in
`connections[x]` exactly as often as `x` occurs in `connections[y]` (every
switch edge is inserted in both directions by `connect`); and the propagation
of `update` never modifies `connections`, so the symmetry holds after every
step. -/
theorem connections_symmetric (b : CBuilder) (sc : Subcircuit)
    (hwb : ∀ sw ∈ b.switches, sw.pole < b.numNodes ∧ sw.nc < b.numNodes)
    (hws : ∀ sw ∈ sc.switches,
      sw.pole < sc.nodeStates.length ∧ sw.no < sc.nodeStates.length ∧
        sw.nc < sc.nodeStates.length) :
    (∀ x y, ((b.finalize.connections.getD x []).count y)
      = ((b.finalize.connections.getD y []).count x)) ∧
    (∀ x y, (((sc.endStep).connections.getD x []).count y)
      = (((sc.endStep).connections.getD y []).count x)) ∧
    (∀ nid, (sc.updateAt nid).1.connections = sc.connections) := by
  refine ⟨?_, ?_, fun _ => rfl⟩
  · intro x y
    rw [finalize_connections_eq]
    refine foldl_connect_symm _ _ ?_ (replicate_symm b.numNodes) x y
    intro e he
    obtain ⟨sw, hsw, rfl⟩ := List.mem_map.mp he
    have := hwb sw hsw
    simpa using this
  · intro x y
    rw [endStep_connections_eq]
    refine foldl_connect_symm _ _ ?_ (replicate_symm sc.nodeStates.length) x y
    intro e he
    obtain ⟨p, hp, rfl⟩ := List.mem_map.mp he
    have hmem : p.2 ∈ sc.switches := (List.of_mem_zip hp).2
    have := hws p.2 hmem
    constructor
    · simpa using this.1
    · by_cases hact : p.1 <;> simp [hact, this.2.1, this.2.2]

/-- C9 witness: symmetry at the concrete one-relay builder and subcircuit. -/
theorem connections_symmetric_witness :
    ((∀ sw ∈ (oneRelayCB.getD CBuilder.new).switches,
        sw.pole < (oneRelayCB.getD CBuilder.new).numNodes ∧
          sw.nc < (oneRelayCB.getD CBuilder.new).numNodes) ∧
     (∀ sw ∈ (oneRelaySc.getD (CBuilder.new.finalize)).switches,
        sw.pole < (oneRelaySc.getD (CBuilder.new.finalize)).nodeStates.length ∧
          sw.no < (oneRelaySc.getD (CBuilder.new.finalize)).nodeStates.length ∧
          sw.nc < (oneRelaySc.getD (CBuilder.new.finalize)).nodeStates.length)) ∧
    ((∀ x y, (((oneRelayCB.getD CBuilder.new).finalize.connections.getD x []).count y)
      = (((oneRelayCB.getD CBuilder.new).finalize.connections.getD y []).count x)) ∧
    (∀ x y, ((((oneRelaySc.getD (CBuilder.new.finalize)).endStep).connections.getD x []).count y)
      = ((((oneRelaySc.getD (CBuilder.new.finalize)).endStep).connections.getD y []).count x)) ∧
    (∀ nid, ((oneRelaySc.getD (CBuilder.new.finalize)).updateAt nid).1.connections
      = (oneRelaySc.getD (CBuilder.new.finalize)).connections)) :=
  ⟨⟨by decide, by decide⟩,
    connections_symmetric (oneRelayCB.getD CBuilder.new)
      (oneRelaySc.getD (CBuilder.new.finalize)) (by decide) (by decide)⟩

/-! ### Generic lemmas about fuelled iteration -/

theorem iterOpt_invariant {σ : Type} (f : σ → Option σ) (P : σ → Prop)
    (hstep : ∀ s s', P s → f s = some s' → P s') :
    ∀ (n : Nat) (s : σ), P s → P (iterOpt f n s) := by
  intro n
  induction n with
  | zero => intro s hs; exact hs
  | succ m ih =>
    intro s hs
    unfold iterOpt
    cases hf : f s with
    | none => exact hs
    | some s' => exact ih s' (hstep s s' hs hf)

theorem iterOpt_stops {σ : Type} (f : σ → Option σ) (μ : σ → Nat) (I : σ → Prop)
    (hstep : ∀ s s', I s → f s = some s' → I s' ∧ μ s' < μ s) :
    ∀ (n : Nat) (s : σ), I s → μ s ≤ n → f (iterOpt f n s) = none := by
  intro n
  induction n with
  | zero =>
    intro s hI hμ
    cases hf : f s with
    | none => exact hf
    | some s' => exact absurd ((hstep s s' hI hf).2) (by omega)
  | succ m ih =>
    intro s hI hμ
    unfold iterOpt
    cases hf : f s with
    | none => exact hf
    | some s' =>
      obtain ⟨hI', hμ'⟩ := hstep s s' hI hf
      exact ih s' hI' (by omega)

/-! ### Facts about the `update` worklist loop -/

theorem getD_of_length_le {α : Type} (l : List α) (i : Nat) (d : α) (h : l.length ≤ i) :
    l.getD i d = d := by
  induction l generalizing i with
  | nil => simp
  | cons x xs ih =>
    cases i with
    | zero => simp at h
    | succ j => simpa using ih j (by simpa using h)

theorem getD_set_true_mono (vis : List Bool) (node v : Nat)
    (hv : vis.getD v false = true) : (vis.set node true).getD v false = true := by
  by_cases hn : node = v
  · subst hn
    by_cases hlt : node < vis.length
    · rw [getD_set_self _ _ _ _ hlt]
    · rw [getD_set_le _ _ _ false (by omega)]
      exact hv
  · rw [getD_set_ne _ _ _ _ _ hn]
    exact hv

theorem updStep_none_iff (conns : List (List Nat)) (coils : List (List Coil))
    (pub : List (Nat × List Handle)) (s : UpdState) :
    updStep conns coils pub s = none ↔ s.worklist = [] := by
  obtain ⟨wl, vis, nsp, ret⟩ := s
  cases wl <;> simp [updStep]

theorem sum_map_single_diff {α : Type} [DecidableEq α] (l : List α) (f g : α → Nat) (x : α)
    (d : Nat) (hnd : l.Nodup) (hx : x ∈ l) (hfx : f x = g x + d)
    (hother : ∀ y ∈ l, y ≠ x → f y = g y) :
    (l.map f).sum = (l.map g).sum + d := by
  induction l with
  | nil => simp at hx
  | cons a rest ih =>
    rcases List.mem_cons.mp hx with ha | ha
    · have hrest : rest.map f = rest.map g := by
        refine List.map_congr_left ?_
        intro y hy
        refine hother y (List.mem_cons_of_mem _ hy) ?_
        intro he
        rw [he, ha] at hy
        exact (List.nodup_cons.mp hnd).1 hy
      rw [List.map_cons, List.map_cons, List.sum_cons, List.sum_cons, hrest, ← ha, hfx]
      omega
    · have hane : a ≠ x := by
        intro he
        refine (List.nodup_cons.mp hnd).1 ?_
        rw [he]
        exact ha
      have hfa : f a = g a := hother a (List.mem_cons_self _ _) hane
      have hih := ih (List.nodup_cons.mp hnd).2 ha
        (fun y hy hyx => hother y (List.mem_cons_of_mem _ hy) hyx)
      rw [List.map_cons, List.map_cons, List.sum_cons, List.sum_cons, hfa, hih]
      omega

theorem unvisWeight_set (conns : List (List Nat)) (vis : List Bool) (node : Nat)
    (h1 : node < vis.length) (h2 : vis.getD node false = false) :
    unvisWeight conns vis
      = unvisWeight conns (vis.set node true) + ((conns.getD node []).length + 1) := by
  unfold unvisWeight
  rw [List.length_set]
  refine sum_map_single_diff (List.range vis.length) _ _ node _ (List.nodup_range _)
    (List.mem_range.mpr h1) ?_ ?_
  · rw [h2, getD_set_self _ _ _ _ h1]
    simp
  · intro y _ hy
    rw [getD_set_ne _ _ _ _ _ (fun he => hy he.symm)]

theorem updStep_decrease (conns : List (List Nat)) (coils : List (List Coil))
    (pub : List (Nat × List Handle)) (s s' : UpdState)
    (hI : conns.length ≤ s.nodeStates.length)
    (hf : updStep conns coils pub s = some s') :
    (conns.length ≤ s'.nodeStates.length) ∧
      (s'.worklist.length + unvisWeight conns s'.nodeStates
        < s.worklist.length + unvisWeight conns s.nodeStates) := by
  obtain ⟨wl, vis, nsp, ret⟩ := s
  have hIv : conns.length ≤ vis.length := hI
  cases wl with
  | nil => simp [updStep] at hf
  | cons node rest =>
    simp only [updStep, Option.some_inj] at hf
    by_cases hvis : vis.getD node false
    · rw [if_pos hvis] at hf
      subst hf
      refine ⟨hIv, ?_⟩
      show rest.length + unvisWeight conns vis
        < (node :: rest).length + unvisWeight conns vis
      simp
    · rw [if_neg hvis] at hf
      subst hf
      by_cases hn : node < vis.length
      · have hw := unvisWeight_set conns vis node hn (by simpa using hvis)
        have hpush :
            (((conns.getD node []).filter
              (fun o => !((vis.set node true).getD o false))).reverse).length
              ≤ (conns.getD node []).length := by
          rw [List.length_reverse]
          exact List.length_filter_le _ _
        constructor
        · show conns.length ≤ (vis.set node true).length
          simpa using hIv
        · show (((conns.getD node []).filter
              (fun o => !((vis.set node true).getD o false))).reverse ++ rest).length
              + unvisWeight conns (vis.set node true)
            < (node :: rest).length + unvisWeight conns vis
          rw [hw, List.length_append, List.length_cons]
          omega
      · have hset : vis.set node true = vis := getD_set_le _ _ _ false (by omega)
        have hconn0 : conns.getD node [] = [] :=
          getD_of_length_le conns node [] (by omega)
        constructor
        · show conns.length ≤ (vis.set node true).length
          simpa using hIv
        · show (((conns.getD node []).filter
              (fun o => !((vis.set node true).getD o false))).reverse ++ rest).length
              + unvisWeight conns (vis.set node true)
            < (node :: rest).length + unvisWeight conns vis
          rw [hconn0, hset]
          simp

theorem updLoop_done (conns : List (List Nat)) (coils : List (List Coil))
    (pub : List (Nat × List Handle)) (s : UpdState)
    (hI : conns.length ≤ s.nodeStates.length) :
    (iterOpt (updStep conns coils pub) (updFuel conns s) s).worklist = [] := by
  rw [← updStep_none_iff conns coils pub]
  refine iterOpt_stops (updStep conns coils pub)
    (fun t => t.worklist.length + unvisWeight conns t.nodeStates)
    (fun t => conns.length ≤ t.nodeStates.length)
    (fun t t' hIt hft => updStep_decrease conns coils pub t t' hIt hft)
    (updFuel conns s) s hI ?_
  show s.worklist.length + unvisWeight conns s.nodeStates ≤ updFuel conns s
  unfold updFuel
  exact Nat.le_refl _

/-! ### C2: Phase A computes graph reachability -/

/-- Reachability along the directed edge relation `c ∈ connections[b]` (the
builder inserts every edge in both directions, making this undirected in
practice). -/
inductive Reaches (conns : List (List Nat)) : Nat → Nat → Prop
  | refl (a : Nat) : Reaches conns a a
  | tail (a b c : Nat) : Reaches conns a b → c ∈ conns.getD b [] → Reaches conns a c

/-- Local alias for the update loop of a subcircuit. -/
def updF (sc : Subcircuit) : UpdState → Option UpdState :=
  updStep sc.connections sc.coils sc.publicNodes

/-- The final loop state of `Subcircuit::update` seeded at `nid`. -/
def updFinal (sc : Subcircuit) (nid : Nat) : UpdState :=
  iterOpt (updF sc) (updFuel sc.connections ⟨[nid], sc.nodeStates, sc.nextSwitchPositions, []⟩)
    ⟨[nid], sc.nodeStates, sc.nextSwitchPositions, []⟩

theorem updateAt_eq_updFinal (sc : Subcircuit) (nid : Nat) :
    (sc.updateAt nid).1.nodeStates = (updFinal sc nid).nodeStates ∧
    (sc.updateAt nid).1.nextSwitchPositions = (updFinal sc nid).nextSwitchPositions ∧
    (sc.updateAt nid).2 = (updFinal sc nid).ret :=
  ⟨rfl, rfl, rfl⟩

/-- Well-formedness of a subcircuit's propagation data: the adjacency table has
one row per node and every listed neighbour is a node. -/
def ScWF (sc : Subcircuit) : Prop :=
  sc.connections.length = sc.nodeStates.length ∧
    ∀ u, ∀ v ∈ sc.connections.getD u [], v < sc.nodeStates.length

theorem updFinal_wl_empty (sc : Subcircuit) (nid : Nat)
    (hlen : sc.connections.length ≤ sc.nodeStates.length) :
    (updFinal sc nid).worklist = [] := by
  exact updLoop_done sc.connections sc.coils sc.publicNodes _ hlen

theorem updLoop_len (sc : Subcircuit) (n : Nat) (s : UpdState) :
    (iterOpt (updF sc) n s).nodeStates.length = s.nodeStates.length := by
  refine iterOpt_invariant (updF sc)
    (fun t => t.nodeStates.length = s.nodeStates.length) ?_ n s rfl
  intro t t' ht hf
  obtain ⟨wl, vis, nsp, ret⟩ := t
  cases wl with
  | nil => simp [updF, updStep] at hf
  | cons node rest =>
    simp only [updF, updStep, Option.some_inj] at hf
    by_cases hvis : vis.getD node false
    · rw [if_pos hvis] at hf; subst hf; exact ht
    · rw [if_neg hvis] at hf; subst hf
      show (vis.set node true).length = _
      simpa using ht

theorem updLoop_vis_mono (sc : Subcircuit) (n : Nat) (s : UpdState) (v : Nat)
    (hv : s.nodeStates.getD v false = true) :
    (iterOpt (updF sc) n s).nodeStates.getD v false = true := by
  refine iterOpt_invariant (updF sc) (fun t => t.nodeStates.getD v false = true) ?_ n s hv
  intro t t' ht hf
  obtain ⟨wl, vis, nsp, ret⟩ := t
  cases wl with
  | nil => simp [updF, updStep] at hf
  | cons node rest =>
    simp only [updF, updStep, Option.some_inj] at hf
    by_cases hvis : vis.getD node false
    · rw [if_pos hvis] at hf; subst hf; exact ht
    · rw [if_neg hvis] at hf; subst hf
      exact getD_set_true_mono vis node v ht

theorem updLoop_wl_absorbed (sc : Subcircuit) (n : Nat) (s : UpdState)
    (hconn : ∀ u, ∀ v ∈ sc.connections.getD u [], v < s.nodeStates.length)
    (hwl : ∀ w ∈ s.worklist, w < s.nodeStates.length)
    (hdone : (iterOpt (updF sc) n s).worklist = []) :
    ∀ w ∈ s.worklist, (iterOpt (updF sc) n s).nodeStates.getD w false = true := by
  induction n generalizing s with
  | zero =>
    intro w hw
    simp only [iterOpt] at hdone ⊢
    rw [hdone] at hw
    simp at hw
  | succ m ih =>
    intro w hw
    unfold iterOpt at hdone ⊢
    cases hf : updF sc s with
    | none =>
      rw [hf] at hdone
      rw [(updStep_none_iff _ _ _ s).mp hf] at hw
      simp at hw
    | some s' =>
      rw [hf] at hdone
      obtain ⟨wl, vis, nsp, ret⟩ := s
      cases wl with
      | nil => simp [updF, updStep] at hf
      | cons node rest =>
        have hlen' : s'.nodeStates.length = vis.length := by
          simp only [updF, updStep, Option.some_inj] at hf
          by_cases hvis : vis.getD node false
          · rw [if_pos hvis] at hf; subst hf; rfl
          · rw [if_neg hvis] at hf; subst hf
            show (vis.set node true).length = _
            simp
        simp only [updF, updStep, Option.some_inj] at hf
        rcases List.mem_cons.mp hw with hwn | hwr
        · subst hwn
          by_cases hvis : vis.getD w false
          · rw [if_pos hvis] at hf
            subst hf
            exact updLoop_vis_mono sc m _ w hvis
          · rw [if_neg hvis] at hf
            subst hf
            refine updLoop_vis_mono sc m _ w ?_
            show (vis.set w true).getD w false = true
            have hwlt : w < vis.length := hwl w (List.mem_cons_self _ _)
            rw [getD_set_self _ _ _ _ hwlt]
        · by_cases hvis : vis.getD node false
          · rw [if_pos hvis] at hf
            subst hf
            exact ih ⟨rest, vis, nsp, ret⟩ hconn
              (fun u hu => hwl u (List.mem_cons_of_mem _ hu)) hdone w hwr
          · rw [if_neg hvis] at hf
            subst hf
            refine ih ⟨(((sc.connections.getD node []).filter
                (fun o => !((vis.set node true).getD o false))).reverse ++ rest),
                vis.set node true,
                markCoils nsp (sc.coils.getD node []),
                ret ++ (assocGet sc.publicNodes node).getD []⟩
              ?_ ?_ hdone w (by simp [hwr])
            · intro u v hv
              show v < (vis.set node true).length
              rw [List.length_set]
              exact hconn u v hv
            · intro u hu
              show u < (vis.set node true).length
              rw [List.length_set]
              rcases List.mem_append.mp hu with hu | hu
              · have hu' := List.mem_reverse.mp hu
                have hu'' := List.mem_filter.mp hu'
                exact hconn node u hu''.1
              · exact hwl u (List.mem_cons_of_mem _ hu)

theorem updLoop_sound (sc : Subcircuit) (R : Nat → Prop)
    (hclosed : ∀ b c, R b → c ∈ sc.connections.getD b [] → R c)
    (n : Nat) (s : UpdState)
    (hwlR : ∀ w ∈ s.worklist, R w)
    (hvisR : ∀ v, s.nodeStates.getD v false = true → R v) :
    ∀ v, (iterOpt (updF sc) n s).nodeStates.getD v false = true → R v := by
  have hmain := iterOpt_invariant (updF sc)
    (fun t => (∀ w ∈ t.worklist, R w) ∧ (∀ v, t.nodeStates.getD v false = true → R v))
    ?_ n s ⟨hwlR, hvisR⟩
  · exact hmain.2
  · intro t t' ht hf
    obtain ⟨hw, hv⟩ := ht
    obtain ⟨wl, vis, nsp, ret⟩ := t
    cases wl with
    | nil => simp [updF, updStep] at hf
    | cons node rest =>
      simp only [updF, updStep, Option.some_inj] at hf
      by_cases hvis : vis.getD node false
      · rw [if_pos hvis] at hf
        subst hf
        exact ⟨fun w hw' => hw w (List.mem_cons_of_mem _ hw'), hv⟩
      · rw [if_neg hvis] at hf
        subst hf
        constructor
        · intro w hw'
          rcases List.mem_append.mp hw' with h1 | h1
          · have h1' := List.mem_filter.mp (List.mem_reverse.mp h1)
            exact hclosed node w (hw node (List.mem_cons_self _ _)) h1'.1
          · exact hw w (List.mem_cons_of_mem _ h1)
        · intro v hv'
          by_cases hvn : v = node
          · subst hvn
            exact hw v (List.mem_cons_self _ _)
          · show R v
            have : vis.getD v false = true := by
              have := hv'
              show vis.getD v false = true
              rw [← getD_set_ne vis node v true false (fun he => hvn he.symm)]
              exact this
            exact hv v this

theorem updLoop_closure (sc : Subcircuit) (n : Nat) (s : UpdState)
    (hconn : ∀ u, ∀ v ∈ sc.connections.getD u [], v < s.nodeStates.length)
    (hwl : ∀ w ∈ s.worklist, w < s.nodeStates.length)
    (hcl : ∀ b c, s.nodeStates.getD b false = true → c ∈ sc.connections.getD b [] →
      (s.nodeStates.getD c false = true ∨ c ∈ s.worklist)) :
    (∀ w ∈ (iterOpt (updF sc) n s).worklist, w < (iterOpt (updF sc) n s).nodeStates.length) ∧
    (∀ b c, (iterOpt (updF sc) n s).nodeStates.getD b false = true →
      c ∈ sc.connections.getD b [] →
      ((iterOpt (updF sc) n s).nodeStates.getD c false = true
        ∨ c ∈ (iterOpt (updF sc) n s).worklist)) := by
  have hmain := iterOpt_invariant (updF sc)
    (fun t => t.nodeStates.length = s.nodeStates.length ∧
      (∀ w ∈ t.worklist, w < t.nodeStates.length) ∧
      (∀ b c, t.nodeStates.getD b false = true → c ∈ sc.connections.getD b [] →
        (t.nodeStates.getD c false = true ∨ c ∈ t.worklist)))
    ?_ n s ⟨rfl, hwl, hcl⟩
  · exact ⟨hmain.2.1, hmain.2.2⟩
  · intro t t' ht hf
    obtain ⟨hlen, hw, hc⟩ := ht
    obtain ⟨wl, vis, nsp, ret⟩ := t
    cases wl with
    | nil => simp [updF, updStep] at hf
    | cons node rest =>
      simp only [updF, updStep, Option.some_inj] at hf
      simp only at hlen hw hc
      by_cases hvis : vis.getD node false
      · rw [if_pos hvis] at hf
        subst hf
        refine ⟨hlen, fun w hw' => hw w (List.mem_cons_of_mem _ hw'), ?_⟩
        intro b c hb hbc
        rcases hc b c hb hbc with h1 | h1
        · exact Or.inl h1
        · rcases List.mem_cons.mp h1 with h2 | h2
          · subst h2
            exact Or.inl hvis
          · exact Or.inr h2
      · rw [if_neg hvis] at hf
        subst hf
        have hnode : node < vis.length := hw node (List.mem_cons_self _ _)
        have hlen' : (vis.set node true).length = vis.length := by simp
        refine ⟨by simpa using hlen, ?_, ?_⟩
        · intro w hw'
          show w < (vis.set node true).length
          rw [hlen']
          rcases List.mem_append.mp hw' with h1 | h1
          · have h1' := List.mem_filter.mp (List.mem_reverse.mp h1)
            rw [hlen]
            exact hconn node w h1'.1
          · exact hw w (List.mem_cons_of_mem _ h1)
        · intro b c hb hbc
          by_cases hbn : b = node
          · subst hbn
            by_cases hcvis : (vis.set b true).getD c false = true
            · exact Or.inl hcvis
            · refine Or.inr (List.mem_append.mpr (Or.inl ?_))
              rw [List.mem_reverse, List.mem_filter]
              refine ⟨hbc, ?_⟩
              simp only [Bool.not_eq_true'] at hcvis ⊢
              simpa using hcvis
          · have hb' : vis.getD b false = true := by
              rw [← getD_set_ne vis node b true false (fun he => hbn he.symm)]
              exact hb
            rcases hc b c hb' hbc with h1 | h1
            · exact Or.inl (getD_set_true_mono vis node c h1)
            · rcases List.mem_cons.mp h1 with h2 | h2
              · subst h2
                exact Or.inl (by rw [getD_set_self _ _ _ _ hnode])
              · exact Or.inr (List.mem_append.mpr (Or.inr h2))

theorem reaches_closed (conns : List (List Nat)) (vis : Nat → Prop)
    (hclosed : ∀ b c, vis b → c ∈ conns.getD b [] → vis c)
    (a v : Nat) (hr : Reaches conns a v) (ha : vis a) : vis v := by
  induction hr with
  | refl => exact ha
  | tail b c _ hedge ih => exact hclosed b c ih hedge

theorem updateAt_vis_iff (sc : Subcircuit) (nid : Nat)
    (hwf : ScWF sc) (hnid : nid < sc.nodeStates.length)
    (hcl : ∀ b c, sc.nodeStates.getD b false = true → c ∈ sc.connections.getD b [] →
      sc.nodeStates.getD c false = true) :
    (∀ v, (sc.updateAt nid).1.nodeStates.getD v false = true ↔
      (sc.nodeStates.getD v false = true ∨ Reaches sc.connections nid v)) ∧
    (∀ b c, (sc.updateAt nid).1.nodeStates.getD b false = true →
      c ∈ sc.connections.getD b [] → (sc.updateAt nid).1.nodeStates.getD c false = true) ∧
    (sc.updateAt nid).1.nodeStates.length = sc.nodeStates.length := by
  obtain ⟨hlen, hconn⟩ := hwf
  have hfin : (sc.updateAt nid).1.nodeStates = (updFinal sc nid).nodeStates := rfl
  have hdone : (updFinal sc nid).worklist = [] := updFinal_wl_empty sc nid (by omega)
  have hwl0 : ∀ w ∈ ([nid] : List Nat), w < sc.nodeStates.length := by
    intro w hw
    rw [List.mem_singleton.mp hw]
    exact hnid
  have habs : (updFinal sc nid).nodeStates.getD nid false = true := by
    refine updLoop_wl_absorbed sc (updFuel sc.connections ⟨[nid], sc.nodeStates, sc.nextSwitchPositions, []⟩)
      ⟨[nid], sc.nodeStates, sc.nextSwitchPositions, []⟩ hconn hwl0 hdone nid
      (List.mem_singleton.mpr rfl)
  have hclosed_fin : ∀ b c, (updFinal sc nid).nodeStates.getD b false = true →
      c ∈ sc.connections.getD b [] → (updFinal sc nid).nodeStates.getD c false = true := by
    intro b c hb hbc
    have hclosure := (updLoop_closure sc
      (updFuel sc.connections ⟨[nid], sc.nodeStates, sc.nextSwitchPositions, []⟩)
      ⟨[nid], sc.nodeStates, sc.nextSwitchPositions, []⟩ hconn hwl0
      (fun b' c' hb' hbc' => Or.inl (hcl b' c' hb' hbc'))).2
    rcases hclosure b c hb hbc with h | h
    · exact h
    · have h' : c ∈ (updFinal sc nid).worklist := h
      rw [hdone] at h'
      simp at h'
  have hmono : ∀ v, sc.nodeStates.getD v false = true →
      (updFinal sc nid).nodeStates.getD v false = true := by
    intro v hv
    exact updLoop_vis_mono sc _ ⟨[nid], sc.nodeStates, sc.nextSwitchPositions, []⟩ v hv
  refine ⟨?_, ?_, ?_⟩
  · intro v
    rw [hfin]
    constructor
    · intro hv
      refine updLoop_sound sc
        (fun u => sc.nodeStates.getD u false = true ∨ Reaches sc.connections nid u)
        ?_ _ ⟨[nid], sc.nodeStates, sc.nextSwitchPositions, []⟩ ?_ ?_ v hv
      · intro b c hb hbc
        rcases hb with hb | hb
        · exact Or.inl (hcl b c hb hbc)
        · exact Or.inr (Reaches.tail _ b c hb hbc)
      · intro w hw
        rw [List.mem_singleton.mp hw]
        exact Or.inr (Reaches.refl nid)
      · intro u hu
        exact Or.inl hu
    · intro hv
      rcases hv with hv | hv
      · exact hmono v hv
      · exact reaches_closed sc.connections
          (fun u => (updFinal sc nid).nodeStates.getD u false = true)
          hclosed_fin nid v hv habs
  · intro b c hb hbc
    rw [hfin] at hb ⊢
    exact hclosed_fin b c hb hbc
  · rw [hfin]
    exact updLoop_len sc _ _

/-- Phase A of a step: propagate from each seed node in turn, as `Circuit::step`
calls `Subcircuit::update` once per driven handle (plus `G`). -/
def phaseA (sc : Subcircuit) (seeds : List Nat) : Subcircuit :=
  seeds.foldl (fun sc nid => (sc.updateAt nid).1) sc

theorem phaseA_fold (seeds : List Nat) (sc : Subcircuit)
    (hwf : ScWF sc)
    (hseeds : ∀ s ∈ seeds, s < sc.nodeStates.length)
    (hcl : ∀ b c, sc.nodeStates.getD b false = true → c ∈ sc.connections.getD b [] →
      sc.nodeStates.getD c false = true) :
    (∀ v, (phaseA sc seeds).nodeStates.getD v false = true ↔
      (sc.nodeStates.getD v false = true ∨ ∃ s ∈ seeds, Reaches sc.connections s v)) ∧
    (phaseA sc seeds).connections = sc.connections ∧
    (phaseA sc seeds).nodeStates.length = sc.nodeStates.length := by
  induction seeds generalizing sc with
  | nil =>
    refine ⟨fun v => ?_, rfl, rfl⟩
    simp [phaseA]
  | cons s rest ih =>
    have hs : s < sc.nodeStates.length := hseeds s (List.mem_cons_self _ _)
    obtain ⟨hiff, hclosed', hlen'⟩ := updateAt_vis_iff sc s hwf hs hcl
    have hconn' : (sc.updateAt s).1.connections = sc.connections := rfl
    have hwf' : ScWF (sc.updateAt s).1 := by
      obtain ⟨h1, h2⟩ := hwf
      constructor
      · rw [hconn', hlen']
        exact h1
      · intro u v hv
        rw [hlen']
        exact h2 u v (by rwa [hconn'] at hv)
    have hseeds' : ∀ t ∈ rest, t < (sc.updateAt s).1.nodeStates.length := by
      intro t ht
      rw [hlen']
      exact hseeds t (List.mem_cons_of_mem _ ht)
    obtain ⟨ihiff, ihconn, ihlen⟩ := ih (sc.updateAt s).1 hwf' hseeds'
      (by rwa [← hconn'] at hclosed')
    have hphase : phaseA sc (s :: rest) = phaseA (sc.updateAt s).1 rest := rfl
    refine ⟨?_, ?_, ?_⟩
    · intro v
      rw [hphase, ihiff v, hconn', hiff v]
      constructor
      · rintro ((hv | hv) | ⟨t, ht, hr⟩)
        · exact Or.inl hv
        · exact Or.inr ⟨s, List.mem_cons_self _ _, hv⟩
        · exact Or.inr ⟨t, List.mem_cons_of_mem _ ht, hr⟩
      · rintro (hv | ⟨t, ht, hr⟩)
        · exact Or.inl (Or.inl hv)
        · rcases List.mem_cons.mp ht with h1 | h1
          · exact Or.inl (Or.inr (h1 ▸ hr))
          · exact Or.inr ⟨t, h1, hr⟩
    · rw [hphase, ihconn, hconn']
    · rw [hphase, ihlen, hlen']

theorem bool_eq_of_true_iff (a b : Bool) (h : a = true ↔ b = true) : a = b := by
  cases a <;> cases b <;> simp_all

/-- C2. Phase A computes exactly graph reachability: starting from the reset
`node_states` established by `start_step`, propagating from any list of seed
nodes (the externally driven sources together with the ground node `G`)
energizes a node iff it is reachable from one of the seeds through the
connections in effect for this step; and any reordering of the seed list
yields the very same energized states. -/
theorem phaseA_reachability (sc : Subcircuit) (seeds seeds' : List Nat)
    (hwf : ScWF sc)
    (h0 : sc.nodeStates = List.replicate sc.nodeStates.length false)
    (hseeds : ∀ s ∈ seeds, s < sc.nodeStates.length)
    (hperm : seeds.Perm seeds') :
    (∀ v, (phaseA sc seeds).nodeStates.getD v false = true ↔
      ∃ s ∈ seeds, Reaches sc.connections s v) ∧
    (∀ v, (phaseA sc seeds').nodeStates.getD v false
      = (phaseA sc seeds).nodeStates.getD v false) := by
  have h0' : ∀ v, sc.nodeStates.getD v false = false := by
    intro v
    rw [h0]
    exact getD_replicate _ _ _
  have hcl : ∀ b c, sc.nodeStates.getD b false = true → c ∈ sc.connections.getD b [] →
      sc.nodeStates.getD c false = true := by
    intro b c hb _
    rw [h0' b] at hb
    exact absurd hb (by simp)
  have hmain := (phaseA_fold seeds sc hwf hseeds hcl).1
  have hiff : ∀ v, (phaseA sc seeds).nodeStates.getD v false = true ↔
      ∃ s ∈ seeds, Reaches sc.connections s v := by
    intro v
    rw [hmain v, h0' v]
    simp
  have hseeds2 : ∀ s ∈ seeds', s < sc.nodeStates.length := by
    intro s hs
    exact hseeds s (hperm.mem_iff.mpr hs)
  have hmain2 := (phaseA_fold seeds' sc hwf hseeds2 hcl).1
  have hiff2 : ∀ v, (phaseA sc seeds').nodeStates.getD v false = true ↔
      ∃ s ∈ seeds', Reaches sc.connections s v := by
    intro v
    rw [hmain2 v, h0' v]
    simp
  refine ⟨hiff, ?_⟩
  intro v
  refine bool_eq_of_true_iff _ _ ?_
  rw [hiff v, hiff2 v]
  constructor
  · rintro ⟨s, hs, hr⟩
    exact ⟨s, hperm.mem_iff.mpr hs, hr⟩
  · rintro ⟨s, hs, hr⟩
    exact ⟨s, hperm.mem_iff.mp hs, hr⟩

theorem scwf_of_forall_lt (sc : Subcircuit)
    (h1 : sc.connections.length = sc.nodeStates.length)
    (h2 : ∀ u < sc.connections.length, ∀ v ∈ sc.connections.getD u [], v < sc.nodeStates.length) :
    ScWF sc := by
  refine ⟨h1, fun u v hv => ?_⟩
  by_cases hu : u < sc.connections.length
  · exact h2 u hu v hv
  · rw [getD_of_length_le _ _ _ (by omega)] at hv
    simp at hv

/-- C2 witness: the one-relay subcircuit with seed list `[0]` (the `G` node). -/
theorem phaseA_reachability_witness :
    (ScWF (oneRelaySc.getD (CBuilder.new.finalize)) ∧
     (oneRelaySc.getD (CBuilder.new.finalize)).nodeStates
       = List.replicate (oneRelaySc.getD (CBuilder.new.finalize)).nodeStates.length false ∧
     (∀ s ∈ ([0] : List Nat), s < (oneRelaySc.getD (CBuilder.new.finalize)).nodeStates.length) ∧
     ([0] : List Nat).Perm [0]) ∧
    ((∀ v, (phaseA (oneRelaySc.getD (CBuilder.new.finalize)) [0]).nodeStates.getD v false = true ↔
      ∃ s ∈ ([0] : List Nat), Reaches (oneRelaySc.getD (CBuilder.new.finalize)).connections s v) ∧
    (∀ v, (phaseA (oneRelaySc.getD (CBuilder.new.finalize)) [0]).nodeStates.getD v false
      = (phaseA (oneRelaySc.getD (CBuilder.new.finalize)) [0]).nodeStates.getD v false)) :=
  ⟨⟨scwf_of_forall_lt _ (by decide) (by decide), by decide, by decide, List.Perm.refl _⟩,
    phaseA_reachability (oneRelaySc.getD (CBuilder.new.finalize)) [0] [0]
      (scwf_of_forall_lt _ (by decide) (by decide)) (by decide) (by decide) (List.Perm.refl _)⟩

/-! ### C10: both loops of a step terminate -/

theorem assocGet_mem {κ α : Type} [DecidableEq κ] (m : List (κ × α)) (k : κ) (v : α)
    (h : assocGet m k = some v) : (k, v) ∈ m := by
  induction m with
  | nil => simp [assocGet] at h
  | cons e rest ih =>
    obtain ⟨k', v'⟩ := e
    by_cases hk : k' = k
    · subst hk
      simp only [assocGet, if_pos rfl, if_true, Option.some_inj] at h
      subst h
      exact List.mem_cons_self _ _
    · simp only [assocGet, hk, if_false] at h
      exact List.mem_cons_of_mem _ (ih h)

theorem mem_le_map_sum {κ α : Type} (m : List (κ × α)) (k : κ) (v : α) (g : α → Nat)
    (h : (k, v) ∈ m) : g v ≤ (m.map (fun p => g p.2)).sum := by
  induction m with
  | nil => simp at h
  | cons e rest ih =>
    rcases List.mem_cons.mp h with he | he
    · rw [← he]
      simp only [List.map_cons, List.sum_cons]
      omega
    · have := ih he
      simp only [List.map_cons, List.sum_cons]
      omega

theorem map_fst_assocUpdateFirst {κ α : Type} [DecidableEq κ]
    (m : List (κ × α)) (k : κ) (f : α → α) :
    (assocUpdateFirst m k f).map Prod.fst = m.map Prod.fst := by
  induction m with
  | nil => rfl
  | cons e rest ih =>
    obtain ⟨k', v⟩ := e
    by_cases hk : k' = k
    · simp [assocUpdateFirst, hk]
    · simp [assocUpdateFirst, hk, ih]

theorem sum_assocUpdateFirst {κ α : Type} [DecidableEq κ]
    (m : List (κ × α)) (k : κ) (f : α → α) (g : α → Nat)
    (hpres : ∀ v, assocGet m k = some v → g (f v) = g v) :
    ((assocUpdateFirst m k f).map (fun p => g p.2)).sum = (m.map (fun p => g p.2)).sum := by
  induction m with
  | nil => rfl
  | cons e rest ih =>
    obtain ⟨k', v⟩ := e
    by_cases hk : k' = k
    · subst hk
      have := hpres v (by simp [assocGet])
      simp [assocUpdateFirst, this]
    · simp only [assocUpdateFirst, hk, if_false, List.map_cons, List.sum_cons]
      rw [ih]
      intro v' hv'
      refine hpres v' ?_
      simp [assocGet, hk, hv']

theorem mem_assocUpdateFirst {κ α : Type} [DecidableEq κ]
    (m : List (κ × α)) (k : κ) (f : α → α) :
    ∀ q ∈ assocUpdateFirst m k f, q ∈ m ∨ ∃ v, assocGet m k = some v ∧ q = (k, f v) := by
  induction m with
  | nil => simp [assocUpdateFirst]
  | cons e rest ih =>
    obtain ⟨k', v⟩ := e
    intro q hq
    by_cases hk : k' = k
    · subst hk
      simp only [assocUpdateFirst, if_pos rfl] at hq
      rcases List.mem_cons.mp hq with hq | hq
      · exact Or.inr ⟨v, by simp [assocGet], hq⟩
      · exact Or.inl (List.mem_cons_of_mem _ hq)
    · simp only [assocUpdateFirst, hk, if_false] at hq
      rcases List.mem_cons.mp hq with hq | hq
      · exact Or.inl (by rw [hq]; exact List.mem_cons_self _ _)
      · rcases ih q hq with h1 | ⟨v', hv', hq'⟩
        · exact Or.inl (List.mem_cons_of_mem _ h1)
        · exact Or.inr ⟨v', by simp [assocGet, hk, hv'], hq'⟩

theorem length_filter_mono {α : Type} (l : List α) (p q : α → Bool)
    (himp : ∀ x, p x = true → q x = true) :
    (l.filter p).length ≤ (l.filter q).length := by
  induction l with
  | nil => simp
  | cons a rest ih =>
    simp only [List.filter_cons]
    cases hp : p a
    · cases hq : q a
      · simpa [hp, hq] using ih
      · simp only [hp, hq]
        simp only [Bool.false_eq_true, if_false, if_true, if_pos rfl, List.length_cons]
        omega
    · have hq := himp a hp
      simp only [hp, hq, if_true, if_pos rfl, List.length_cons]
      omega

theorem length_filter_strict {α : Type} (l : List α) (p q : α → Bool) (x : α)
    (himp : ∀ y, p y = true → q y = true) (hx : x ∈ l)
    (hpx : p x = false) (hqx : q x = true) :
    (l.filter p).length < (l.filter q).length := by
  induction l with
  | nil => simp at hx
  | cons a rest ih =>
    simp only [List.filter_cons]
    rcases List.mem_cons.mp hx with ha | ha
    · rw [← ha, hpx, hqx]
      simp only [Bool.false_eq_true, if_false, if_true, if_pos rfl, List.length_cons]
      have := length_filter_mono rest p q himp
      omega
    · cases hp : p a
      · cases hq : q a
        · simpa [hp, hq] using ih ha
        · simp only [hp, hq]
          simp only [Bool.false_eq_true, if_false, if_true, if_pos rfl, List.length_cons]
          have := ih ha
          omega
      · have hq := himp a hp
        simp only [hp, hq, if_true, if_pos rfl, List.length_cons]
        have := ih ha
        omega

theorem filter_notmem_mono {α : Type} [DecidableEq α] (l : List α) (h : α) (vis : List α) :
    ((l.filter (fun x => decide (x ∉ h :: vis))).length)
      ≤ ((l.filter (fun x => decide (x ∉ vis))).length) := by
  refine length_filter_mono l _ _ ?_
  intro x hx
  simp only [decide_eq_true_eq] at hx ⊢
  exact fun hm => hx (List.mem_cons_of_mem _ hm)

theorem filter_notmem_strict {α : Type} [DecidableEq α] (l : List α) (h : α) (vis : List α)
    (hl : h ∈ l) (hv : h ∉ vis) :
    ((l.filter (fun x => decide (x ∉ h :: vis))).length)
      < ((l.filter (fun x => decide (x ∉ vis))).length) := by
  refine length_filter_strict l _ _ h ?_ hl ?_ ?_
  · intro y hy
    simp only [decide_eq_true_eq] at hy ⊢
    exact fun hm => hy (List.mem_cons_of_mem _ hm)
  · simp
  · simp [hv]

/-- Weight of the public aliases at unvisited nodes. -/
def pubWeight (pub : List (Nat × List Handle)) (vis : List Bool) : Nat :=
  (pub.map (fun p => if vis.getD p.1 false then 0 else p.2.length)).sum

theorem pubWeight_mono_set (pub : List (Nat × List Handle)) (vis : List Bool) (node : Nat) :
    pubWeight pub (vis.set node true) ≤ pubWeight pub vis := by
  unfold pubWeight
  refine List.sum_le_sum ?_
  intro p _
  by_cases hp : vis.getD p.1 false = true
  · rw [hp, getD_set_true_mono vis node p.1 hp]
  · have hr : (if vis.getD p.1 false then 0 else p.2.length) = p.2.length := if_neg hp
    rw [hr]
    split <;> omega

theorem pubWeight_set (pub : List (Nat × List Handle)) (vis : List Bool) (node : Nat)
    (hnode : node < vis.length) (hunvis : vis.getD node false = false) :
    pubWeight pub (vis.set node true) + ((assocGet pub node).getD []).length
      ≤ pubWeight pub vis := by
  induction pub with
  | nil => simp [pubWeight, assocGet]
  | cons p rest ih =>
    obtain ⟨k, hs⟩ := p
    by_cases hk : k = node
    · subst hk
      have h1 : (vis.set k true).getD k false = true := getD_set_self _ _ _ _ hnode
      simp only [pubWeight, List.map_cons, List.sum_cons, assocGet, if_pos rfl,
        Option.getD_some, h1, if_true, hunvis]
      simp only [Bool.false_eq_true, if_false]
      have := pubWeight_mono_set rest vis k
      unfold pubWeight at this
      omega
    · have hget : assocGet ((k, hs) :: rest) node = assocGet rest node := by
        simp [assocGet, hk]
      have hsame : (vis.set node true).getD k false = vis.getD k false :=
        getD_set_ne _ _ _ _ _ (fun he => hk he.symm)
      simp only [pubWeight, List.map_cons, List.sum_cons, hget, hsame]
      have := ih
      unfold pubWeight at this
      omega

theorem updLoop_ret_bound (sc : Subcircuit) (n : Nat) (s : UpdState)
    (hpub : ∀ p ∈ sc.publicNodes, p.1 < s.nodeStates.length) :
    (iterOpt (updF sc) n s).ret.length
        + pubWeight sc.publicNodes (iterOpt (updF sc) n s).nodeStates
      ≤ s.ret.length + pubWeight sc.publicNodes s.nodeStates := by
  have hmain := iterOpt_invariant (updF sc)
    (fun t => t.nodeStates.length = s.nodeStates.length ∧
      t.ret.length + pubWeight sc.publicNodes t.nodeStates
        ≤ s.ret.length + pubWeight sc.publicNodes s.nodeStates)
    ?_ n s ⟨rfl, le_rfl⟩
  · exact hmain.2
  · intro t t' ht hf
    obtain ⟨hlen, hbound⟩ := ht
    obtain ⟨wl, vis, nsp, ret⟩ := t
    cases wl with
    | nil => simp [updF, updStep] at hf
    | cons node rest =>
      simp only [updF, updStep, Option.some_inj] at hf
      simp only at hlen hbound
      by_cases hvis : vis.getD node false
      · rw [if_pos hvis] at hf
        subst hf
        exact ⟨hlen, hbound⟩
      · rw [if_neg hvis] at hf
        subst hf
        refine ⟨by simpa using hlen, ?_⟩
        show (ret ++ (assocGet sc.publicNodes node).getD []).length
            + pubWeight sc.publicNodes (vis.set node true) ≤ _
        rw [List.length_append]
        cases hget : assocGet sc.publicNodes node with
        | none =>
          have := pubWeight_mono_set sc.publicNodes vis node
          simp only [hget, Option.getD_none, List.length_nil]
          omega
        | some hs =>
          have hmem := assocGet_mem sc.publicNodes node hs hget
          have hnode : node < vis.length := by
            rw [← hlen] at hpub
            exact hpub (node, hs) hmem
          have := pubWeight_set sc.publicNodes vis node hnode (by simpa using hvis)
          rw [hget] at this
          simp only [Option.getD_some] at this
          simp only [hget, Option.getD_some]
          omega

/-- The handles `update` returns are at most the subcircuit's public alias count. -/
theorem updateAt_ret_le (sc : Subcircuit) (nid : Nat)
    (hpub : ∀ p ∈ sc.publicNodes, p.1 < sc.nodeStates.length) :
    (sc.updateAt nid).2.length ≤ aliasTotal sc := by
  have h1 : (sc.updateAt nid).2 = (updFinal sc nid).ret := rfl
  have h2 := updLoop_ret_bound sc
    (updFuel sc.connections ⟨[nid], sc.nodeStates, sc.nextSwitchPositions, []⟩)
    ⟨[nid], sc.nodeStates, sc.nextSwitchPositions, []⟩ hpub
  have h3 : pubWeight sc.publicNodes sc.nodeStates ≤ aliasTotal sc := by
    unfold pubWeight aliasTotal
    refine List.sum_le_sum ?_
    intro p _
    split <;> omega
  have h4 : (updFinal sc nid).ret.length
      + pubWeight sc.publicNodes (updFinal sc nid).nodeStates
      ≤ [].length + pubWeight sc.publicNodes sc.nodeStates := h2
  rw [h1]
  simp only [List.length_nil, Nat.zero_add] at h4
  omega

/-- Whether processing handle `h` for subcircuit id `scid` can proceed without
panicking: the id resolves and the handle names a node of that subcircuit. -/
def canUpdate (subs : List (List Char × Subcircuit)) (scid : List Char) (h : Handle) : Bool :=
  match assocGet subs scid with
  | some sc => (assocGet sc.nameToNode h).isSome
  | none => false

/-- Well-formedness of a `Circuit::step` loop state, established by
`add_subcircuit` for circuits built through the API: public node ids are in
range in every subcircuit, and every subcircuit id registered under a handle
resolves to a subcircuit that knows that handle. -/
def StepWF (s : StepState) : Prop :=
  (∀ p ∈ s.subcircuits, ∀ q ∈ p.2.publicNodes, q.1 < p.2.nodeStates.length) ∧
  (∀ p ∈ s.nodes, ∀ scid ∈ p.2.subcircuits, canUpdate s.subcircuits scid p.1 = true)

instance (s : StepState) : Decidable (StepWF s) := by
  unfold StepWF
  infer_instance

theorem canUpdate_updateFirst (subs : List (List Char × Subcircuit))
    (scid scid' : List Char) (h' : Handle) (sc : Subcircuit) (nid : Nat)
    (hsc : assocGet subs scid = some sc)
    (hcu : canUpdate subs scid' h' = true) :
    canUpdate (assocUpdateFirst subs scid (fun _ => (sc.updateAt nid).1)) scid' h' = true := by
  unfold canUpdate at hcu ⊢
  by_cases hk : scid = scid'
  · subst hk
    rw [assocGet_updateFirst_self, hsc]
    rw [hsc] at hcu
    exact hcu
  · rw [assocGet_updateFirst_ne _ _ _ _ hk]
    exact hcu

theorem updateH_of_isSome (sc : Subcircuit) (h : Handle) (nid : Nat)
    (hn : assocGet sc.nameToNode h = some nid) :
    sc.updateH h = some (sc.updateAt nid) := by
  unfold Subcircuit.updateH
  rw [hn]
  rfl

theorem processSubs_spec (h : Handle) (scids : List (List Char)) (s : StepState)
    (hwfs : ∀ p ∈ s.subcircuits, ∀ q ∈ p.2.publicNodes, q.1 < p.2.nodeStates.length)
    (hcall : ∀ scid ∈ scids, canUpdate s.subcircuits scid h = true) :
    ∃ s', processSubs h scids s = some s' ∧
      s'.nodes = s.nodes ∧ s'.visited = s.visited ∧
      s'.setNodes.length ≤ s.setNodes.length + scids.length * aliasSumAll s.subcircuits ∧
      aliasSumAll s'.subcircuits = aliasSumAll s.subcircuits ∧
      (∀ p ∈ s'.subcircuits, ∀ q ∈ p.2.publicNodes, q.1 < p.2.nodeStates.length) ∧
      (∀ scid h', canUpdate s.subcircuits scid h' = true →
        canUpdate s'.subcircuits scid h' = true) := by
  induction scids generalizing s with
  | nil =>
    exact ⟨s, rfl, rfl, rfl, by simp, rfl, hwfs, fun _ _ hc => hc⟩
  | cons scid rest ih =>
    have hcu := hcall scid (List.mem_cons_self _ _)
    unfold canUpdate at hcu
    cases hsc : assocGet s.subcircuits scid with
    | none => rw [hsc] at hcu; simp at hcu
    | some sc =>
      rw [hsc] at hcu
      obtain ⟨nid, hnid⟩ := Option.isSome_iff_exists.mp hcu
      have hscmem := assocGet_mem s.subcircuits scid sc hsc
      have hpub : ∀ p ∈ sc.publicNodes, p.1 < sc.nodeStates.length :=
        fun p hp => hwfs (scid, sc) hscmem p hp
      have hretle : (sc.updateAt nid).2.length ≤ aliasTotal sc :=
        updateAt_ret_le sc nid hpub
      have haliasle : aliasTotal sc ≤ aliasSumAll s.subcircuits :=
        mem_le_map_sum s.subcircuits scid sc aliasTotal hscmem
      have heq : processSubs h (scid :: rest) s =
          processSubs h rest
            { s with
              subcircuits := assocUpdateFirst s.subcircuits scid (fun _ => (sc.updateAt nid).1),
              setNodes := (sc.updateAt nid).2.reverse ++ s.setNodes } := by
        conv_lhs => rw [processSubs]
        rw [hsc]
        simp only [updateH_of_isSome sc h nid hnid]
      set s₁ : StepState :=
        { s with
          subcircuits := assocUpdateFirst s.subcircuits scid (fun _ => (sc.updateAt nid).1),
          setNodes := (sc.updateAt nid).2.reverse ++ s.setNodes } with hs₁
      have halias1 : aliasSumAll s₁.subcircuits = aliasSumAll s.subcircuits := by
        show aliasSumAll (assocUpdateFirst s.subcircuits scid (fun _ => (sc.updateAt nid).1))
          = aliasSumAll s.subcircuits
        unfold aliasSumAll
        refine sum_assocUpdateFirst s.subcircuits scid _ aliasTotal ?_
        intro v hv
        rw [hsc] at hv
        injection hv with hv
        subst hv
        rfl
      have hwfs1 : ∀ p ∈ s₁.subcircuits, ∀ q ∈ p.2.publicNodes,
          q.1 < p.2.nodeStates.length := by
        intro p hp q hq
        rcases mem_assocUpdateFirst s.subcircuits scid _ p hp with hold | ⟨v, hv, hpv⟩
        · exact hwfs p hold q hq
        · rw [hsc] at hv
          injection hv with hv
          subst hv
          subst hpv
          have h1 : (sc.updateAt nid).1.publicNodes = sc.publicNodes := rfl
          have h2 : (sc.updateAt nid).1.nodeStates.length = sc.nodeStates.length :=
            updLoop_len sc _ _
          rw [h2]
          refine hpub q ?_
          rw [← h1]
          exact hq
      have hcall1 : ∀ scid' ∈ rest, canUpdate s₁.subcircuits scid' h = true := by
        intro scid' hmem
        exact canUpdate_updateFirst s.subcircuits scid scid' h sc nid hsc
          (hcall scid' (List.mem_cons_of_mem _ hmem))
      obtain ⟨s', hps, hn', hv', hl', ha', hw', hc'⟩ := ih s₁ hwfs1 hcall1
      refine ⟨s', by rw [heq]; exact hps, hn', hv', ?_, by rw [ha', halias1], hw', ?_⟩
      · have hl1 : s₁.setNodes.length ≤ s.setNodes.length + aliasSumAll s.subcircuits := by
          show ((sc.updateAt nid).2.reverse ++ s.setNodes).length ≤ _
          rw [List.length_append, List.length_reverse]
          omega
        rw [halias1] at hl'
        calc s'.setNodes.length
            ≤ s₁.setNodes.length + rest.length * aliasSumAll s.subcircuits := hl'
          _ ≤ s.setNodes.length + aliasSumAll s.subcircuits
              + rest.length * aliasSumAll s.subcircuits := by omega
          _ = s.setNodes.length + (scid :: rest).length * aliasSumAll s.subcircuits := by
              rw [List.length_cons]
              ring
      · intro scid' h' hcu'
        refine hc' scid' h' ?_
        exact canUpdate_updateFirst s.subcircuits scid scid' h' sc nid hsc hcu'

theorem circuitLoop_terminates (fuel : Nat) (s : StepState)
    (hwf : StepWF s) (hfuel : outerMeasure s ≤ fuel) :
    ∃ s', circuitLoop fuel s = some s' ∧ s'.setNodes = [] := by
  induction fuel generalizing s with
  | zero =>
    refine ⟨s, rfl, ?_⟩
    unfold outerMeasure at hfuel
    have : s.setNodes.length = 0 := by omega
    exact List.length_eq_zero.mp this
  | succ m ih =>
    obtain ⟨subs, nodes, sn, vis⟩ := s
    obtain ⟨hwf1, hwf2⟩ := hwf
    cases sn with
    | nil => exact ⟨⟨subs, nodes, [], vis⟩, rfl, rfl⟩
    | cons h rest =>
      have hexp : circuitLoop (m + 1) ⟨subs, nodes, h :: rest, vis⟩
          = if h ∈ vis then circuitLoop m ⟨subs, nodes, rest, vis⟩
            else
              match assocGet nodes h with
              | none => circuitLoop m ⟨subs, nodes, rest, h :: vis⟩
              | some pn =>
                match processSubs h pn.subcircuits
                  ⟨subs, assocUpdateFirst nodes h (fun q => { q with state := true }),
                    rest, h :: vis⟩ with
                | none => none
                | some s₃ => circuitLoop m s₃ := rfl
      rw [hexp]
      have hfuel' : (h :: rest).length + unvisKeyCount ⟨subs, nodes, h :: rest, vis⟩
          * (pushBound ⟨subs, nodes, h :: rest, vis⟩ + 1) ≤ m + 1 := hfuel
      simp only [List.length_cons] at hfuel'
      by_cases hv : h ∈ vis
      · rw [if_pos hv]
        refine ih ⟨subs, nodes, rest, vis⟩ ⟨hwf1, hwf2⟩ ?_
        have hgoal : outerMeasure ⟨subs, nodes, rest, vis⟩
            = rest.length + unvisKeyCount ⟨subs, nodes, rest, vis⟩
              * (pushBound ⟨subs, nodes, rest, vis⟩ + 1) := rfl
        have hK : pushBound ⟨subs, nodes, rest, vis⟩
            = pushBound ⟨subs, nodes, h :: rest, vis⟩ := rfl
        have hU : unvisKeyCount ⟨subs, nodes, rest, vis⟩
            = unvisKeyCount ⟨subs, nodes, h :: rest, vis⟩ := rfl
        rw [hgoal, hK, hU]
        omega
      · rw [if_neg hv]
        cases hn : assocGet nodes h with
        | none =>
          refine ih ⟨subs, nodes, rest, h :: vis⟩ ⟨hwf1, hwf2⟩ ?_
          have hgoal : outerMeasure ⟨subs, nodes, rest, h :: vis⟩
              = rest.length + unvisKeyCount ⟨subs, nodes, rest, h :: vis⟩
                * (pushBound ⟨subs, nodes, rest, h :: vis⟩ + 1) := rfl
          have hK : pushBound ⟨subs, nodes, rest, h :: vis⟩
              = pushBound ⟨subs, nodes, h :: rest, vis⟩ := rfl
          rw [hgoal, hK]
          have hU : unvisKeyCount ⟨subs, nodes, rest, h :: vis⟩
              ≤ unvisKeyCount ⟨subs, nodes, h :: rest, vis⟩ :=
            filter_notmem_mono (nodes.map Prod.fst) h vis
          have hmul := Nat.mul_le_mul_right
            (pushBound ⟨subs, nodes, h :: rest, vis⟩ + 1) hU
          omega
        | some pn =>
          have hpnmem := assocGet_mem nodes h pn hn
          have hcall : ∀ scid ∈ pn.subcircuits, canUpdate subs scid h = true :=
            fun scid hs => hwf2 (h, pn) hpnmem scid hs
          obtain ⟨s₃, hps, hn₃, hv₃, hl₃, ha₃, hwfs₃, hcu₃⟩ :=
            processSubs_spec h pn.subcircuits
              ⟨subs, assocUpdateFirst nodes h (fun q => { q with state := true }),
                rest, h :: vis⟩ hwf1 hcall
          simp only [hps]
          have hnodes3 : s₃.nodes = assocUpdateFirst nodes h (fun q => { q with state := true }) :=
            hn₃
          have hvis3 : s₃.visited = h :: vis := hv₃
          have hwf3 : StepWF s₃ := by
            refine ⟨hwfs₃, ?_⟩
            intro p hp scid hscid
            rw [hnodes3] at hp
            rcases mem_assocUpdateFirst nodes h _ p hp with hold | ⟨v, hvv, hpv⟩
            · exact hcu₃ scid p.1 (hwf2 p hold scid hscid)
            · subst hpv
              rw [hn] at hvv
              injection hvv with hvv
              subst hvv
              exact hcu₃ scid h (hwf2 (h, pn) hpnmem scid hscid)
          refine ih s₃ hwf3 ?_
          -- measure bookkeeping
          have hkeys : s₃.nodes.map Prod.fst = nodes.map Prod.fst := by
            rw [hnodes3]
            exact map_fst_assocUpdateFirst nodes h _
          have hsubslen : subsLenTotal s₃.nodes = subsLenTotal nodes := by
            rw [hnodes3]
            unfold subsLenTotal
            refine sum_assocUpdateFirst nodes h _ (fun q => q.subcircuits.length) ?_
            intro v _
            rfl
          have halias : aliasSumAll s₃.subcircuits = aliasSumAll subs := ha₃
          have hKeq : pushBound s₃ = pushBound ⟨subs, nodes, h :: rest, vis⟩ := by
            unfold pushBound
            rw [hsubslen, halias]
          have hcnt : unvisKeyCount s₃ < unvisKeyCount ⟨subs, nodes, h :: rest, vis⟩ := by
            unfold unvisKeyCount
            rw [hkeys, hvis3]
            refine filter_notmem_strict (nodes.map Prod.fst) h vis ?_ hv
            exact List.mem_map.mpr ⟨(h, pn), hpnmem, rfl⟩
          have hsubsbound : pn.subcircuits.length ≤ subsLenTotal nodes :=
            mem_le_map_sum nodes h pn (fun q => q.subcircuits.length) hpnmem
          have hsetlen : s₃.setNodes.length
              ≤ rest.length + pn.subcircuits.length * aliasSumAll subs := hl₃
          have hgoal : outerMeasure s₃
              = s₃.setNodes.length + unvisKeyCount s₃ * (pushBound s₃ + 1) := rfl
          rw [hgoal, hKeq]
          set K := pushBound ⟨subs, nodes, h :: rest, vis⟩ with hKdef
          set c₀ := unvisKeyCount ⟨subs, nodes, h :: rest, vis⟩ with hc₀
          set c₃ := unvisKeyCount s₃ with hc₃
          have hc0pos : 1 ≤ c₀ := by omega
          have hstep1 : s₃.setNodes.length ≤ rest.length + K := by
            have h1 : pn.subcircuits.length * aliasSumAll subs
                ≤ subsLenTotal nodes * aliasSumAll subs :=
              Nat.mul_le_mul_right _ hsubsbound
            have h2 : K = subsLenTotal nodes * aliasSumAll subs := rfl
            omega
          have hstep2 : c₃ * (K + 1) + (K + 1) ≤ c₀ * (K + 1) := by
            have h1 : c₃ + 1 ≤ c₀ := hcnt
            have h2 : (c₃ + 1) * (K + 1) ≤ c₀ * (K + 1) :=
              Nat.mul_le_mul_right _ h1
            have h3 : (c₃ + 1) * (K + 1) = c₃ * (K + 1) + (K + 1) := by ring
            omega
          omega

/-- C10. Each step performs a bounded amount of work, even on cyclic wiring:
the worklist loop of `Subcircuit::update`, run with its explicit fuel (worklist
length plus the degree-weighted count of unvisited nodes), always drains its
worklist — each node is visited at most once via `node_states`; and for every
well-formed circuit the `Circuit::step` loop, run with the explicit
`outerMeasure` fuel, returns normally with its `set_nodes` worklist empty —
each public handle is processed at most once via the `visited` set. -/
theorem step_loops_terminate (sc : Subcircuit) (nid : Nat) (c : Circuit)
    (hsc : sc.connections.length ≤ sc.nodeStates.length)
    (hwf : StepWF ⟨c.subcircuits, resetNodes c.nodes, gHandle :: c.setNodes, []⟩) :
    (updFinal sc nid).worklist = [] ∧
    ∃ c', Circuit.step c = some c' ∧ c'.setNodes = [] := by
  refine ⟨updFinal_wl_empty sc nid hsc, ?_⟩
  obtain ⟨s', hloop, hempty⟩ := circuitLoop_terminates
    (outerMeasure ⟨c.subcircuits, resetNodes c.nodes, gHandle :: c.setNodes, []⟩)
    ⟨c.subcircuits, resetNodes c.nodes, gHandle :: c.setNodes, []⟩ hwf le_rfl
  refine ⟨⟨s'.subcircuits, s'.nodes, s'.setNodes⟩, ?_, hempty⟩
  show (circuitLoop
      (outerMeasure ⟨c.subcircuits, resetNodes c.nodes, gHandle :: c.setNodes, []⟩)
      ⟨c.subcircuits, resetNodes c.nodes, gHandle :: c.setNodes, []⟩).map
      (fun s => (⟨s.subcircuits, s.nodes, s.setNodes⟩ : Circuit))
    = some (⟨s'.subcircuits, s'.nodes, s'.setNodes⟩ : Circuit)
  rw [hloop]
  rfl

/-- C10 witness: the one-relay subcircuit and circuit. -/
theorem step_loops_terminate_witness :
    ((oneRelaySc.getD (CBuilder.new.finalize)).connections.length
        ≤ (oneRelaySc.getD (CBuilder.new.finalize)).nodeStates.length ∧
     StepWF ⟨(oneRelayCircuit.getD Circuit.new).subcircuits,
        resetNodes (oneRelayCircuit.getD Circuit.new).nodes,
        gHandle :: (oneRelayCircuit.getD Circuit.new).setNodes, []⟩) ∧
    ((updFinal (oneRelaySc.getD (CBuilder.new.finalize)) 0).worklist = [] ∧
     ∃ c', Circuit.step (oneRelayCircuit.getD Circuit.new) = some c' ∧ c'.setNodes = []) :=
  ⟨⟨by decide, by decide⟩,
    step_loops_terminate (oneRelaySc.getD (CBuilder.new.finalize)) 0
      (oneRelayCircuit.getD Circuit.new) (by decide) (by decide)⟩

end Z3mu
